import Mathlib

/-!
Verification of the one-dimensional (UPC/EAN) barcode decoding core of
zxing-cpp.  The repository ships only the C++ headers
(`src/oned/ODReader.h`, `src/oned/ODUPCEANReader.h`); every function body
is absent, so each operation below is modelled from the natural-language
specification of the project (file `spec.md`) and from the doc comments in
the headers.

Conventions of the shallow embedding:
* a pixel row is a `List Bool` where `true` is a black pixel and `false`
  a white pixel (a set bit of the C++ `BitArray` is black);
* run-length vectors and patterns are `List Nat`;
* variance scores are exact rationals (`ℚ`); the C++ "unbounded /
  rejecting" score (`FLT_MAX`) is modelled by `Option ℚ` being `none`;
* fallible operations return `Option` (their only failure is NotFound) or
  the four-valued `ErrorStatus` mirrored from the C++ `enum class
  ErrorStatus`.
-/

namespace ZXing

namespace OneD

/-- The four-valued status enum declared (as `enum class ErrorStatus`) in the
headers; `NoError` is success, the other three are the failure conditions of
spec section 7. -/
inductive ErrorStatus where
  | NoError
  | NotFound
  | FormatError
  | ChecksumError
deriving DecidableEq

/-- The three failure kinds of a decode outcome (spec section 7). -/
inductive FailureKind where
  | notFound
  | formatError
  | checksumError
deriving DecidableEq

/-- The symbology identifiers relevant to the UPC/EAN family. -/
inductive BarcodeFormat where
  | UPC_A
  | UPC_E
  | EAN_8
  | EAN_13
deriving DecidableEq

/-- Length of the maximal run of colour `c` at the head of `l`. -/
def runLen (c : Bool) : List Bool → Nat
  | [] => 0
  | x :: t => if x = c then runLen c t + 1 else 0

/-- Modelled from the spec: the loop of `Reader::RecordPattern` (body absent
from the repository).  From index `i`, with `c` the colour of the current
run, measure `K` consecutive maximal alternating-colour runs; return the run
lengths together with the index reached after the scan, or `none` if the row
runs out of pixels first. -/
def recordLoop (row : List Bool) : Bool → Nat → Nat → Option (List Nat × Nat)
  | _, i, 0 => some ([], i)
  | c, i, K + 1 =>
    let n := runLen c (row.drop i)
    if n = 0 then none
    else (recordLoop row (!c) (i + n) K).map (fun p => (n :: p.1, p.2))

/-- Modelled from the spec: `Reader::RecordPattern` (body absent from the
repository).  Starting at `start`, record `K` consecutive alternating-colour
run lengths, the first run having the colour of the pixel at `start`; `none`
models the NotFound status when the row ends before `K` runs are completed.
On success it also returns the index reached after the scan. -/
def RecordPattern (row : List Bool) (start K : Nat) : Option (List Nat × Nat) :=
  match row[start]? with
  | none => none
  | some c => recordLoop row c start K

/-- Length of the maximal run of colour `c` in `row` that ends just before
index `i` (scanning backward from `i`). -/
def runLenRev (row : List Bool) (c : Bool) (i : Nat) : Nat :=
  runLen c ((row.take i).reverse)

/-- Modelled from the spec: the backward-scanning loop of
`Reader::RecordPatternInReverse` (body absent from the repository).  From
index `i` scan towards the beginning of the row, counting `K` maximal
alternating-colour runs, and accumulate the counts already reordered into
forward orientation (the run counted first is the rightmost, hence last). -/
def recordLoopRev (row : List Bool) : Bool → Nat → Nat → Option (List Nat)
  | _, _, 0 => some []
  | c, i, K + 1 =>
    let n := runLenRev row c i
    if n = 0 then none
    else (recordLoopRev row (!c) (i - n) K).map (fun cs => cs ++ [n])

/-- Modelled from the spec: `Reader::RecordPatternInReverse` (body absent
from the repository).  Same contract as `RecordPattern` but scanning
backward from `start`; the colour of the first counted run is the colour of
the pixel immediately preceding `start`, and the output is reordered into
forward orientation. -/
def RecordPatternInReverse (row : List Bool) (start K : Nat) : Option (List Nat) :=
  if start = 0 then none
  else
    match row[start - 1]? with
    | none => none
    | some c => recordLoopRev row c start K

/-- Modelled from the spec: the per-index rejection test of
`Reader::PatternMatchVariance` — `true` iff some pair `(cᵢ, pᵢ)` has
deviation `|cᵢ - pᵢ·scale|` exceeding `maxIndividualVariance · pᵢ·scale`. -/
def anyBad (scale maxIndividualVariance : ℚ) : List (Nat × Nat) → Bool
  | [] => false
  | (c, p) :: t =>
    if maxIndividualVariance * ((p : ℚ) * scale) < |(c : ℚ) - (p : ℚ) * scale| then true
    else anyBad scale maxIndividualVariance t

/-- Total deviation `Σᵢ |cᵢ - pᵢ·scale|` over a zipped counter/pattern list. -/
def sumDevs (scale : ℚ) : List (Nat × Nat) → ℚ
  | [] => 0
  | (c, p) :: t => |(c : ℚ) - (p : ℚ) * scale| + sumDevs scale t

/-- Modelled from the spec: `Reader::PatternMatchVariance` (body absent from
the repository).  Let `scale = Σ counters / Σ pattern`.  If any index has
deviation `|counterᵢ - patternᵢ·scale|` exceeding
`maxIndividualVariance · patternᵢ·scale`, return the rejecting (unbounded)
score, modelled as `none`; otherwise return the normalized total variance
`Σᵢ |counterᵢ - patternᵢ·scale| / Σ counters`. -/
def PatternMatchVariance (counters pattern : List Nat) (maxIndividualVariance : ℚ) : Option ℚ :=
  let total : ℚ := (counters.sum : ℚ)
  let scale : ℚ := total / (pattern.sum : ℚ)
  if anyBad scale maxIndividualVariance (counters.zip pattern) then none
  else some (sumDevs scale (counters.zip pattern) / total)

/-- Number of maximal runs of equal adjacent colours in a row. -/
def numRuns : List Bool → Nat
  | [] => 0
  | [_] => 1
  | a :: b :: t => (if a = b then 0 else 1) + numRuns (b :: t)

/-- The pixel row described by a run-length vector: the first `n₀` pixels of
colour `c`, the next `n₁` of colour `!c`, and so on alternating. -/
def runsExpand (c : Bool) : List Nat → List Bool
  | [] => []
  | n :: t => List.replicate n c ++ runsExpand (!c) t

/-- The colour reached after `k` alternations starting from colour `c`. -/
def altColor (c : Bool) (k : Nat) : Bool :=
  if k % 2 = 0 then c else !c

/-- Modelled from the spec: the fixed maximum-average-variance acceptance
threshold (final acceptance score) of `UPCEANReader`. -/
def MAX_AVG_VARIANCE : ℚ := 12 / 25

/-- Modelled from the spec: the fixed maximum individual run variance
threshold of `UPCEANReader`. -/
def MAX_INDIVIDUAL_VARIANCE : ℚ := 7 / 10

/-- The start/end guard pattern `{1,1,1}` (spec section 6, constants
surface). -/
def START_END_PATTERN : List Nat := [1, 1, 1]

/-- Whether an observed run-length vector is accepted against an ideal
pattern: its variance score must exist (no individual run too far off) and
be below the maximum-average-variance threshold. -/
def acceptedB (cs pattern : List Nat) : Bool :=
  match PatternMatchVariance cs pattern MAX_INDIVIDUAL_VARIANCE with
  | some v => decide (v < MAX_AVG_VARIANCE)
  | none => false

/-- Whether position `p` of the row carries a run-length vector of
`pattern.length` runs that scores within the acceptance threshold against
`pattern`. -/
def qualifiesB (row : List Bool) (pattern : List Nat) (p : Nat) : Bool :=
  match RecordPattern row p pattern.length with
  | some (cs, _) => acceptedB cs pattern
  | none => false

/-- Index of the first pixel of colour `c` at or after `i` (the length of
the row if there is none): skip the run of the opposite colour starting at
`i`. -/
def nextColorIndex (row : List Bool) (c : Bool) (i : Nat) : Nat :=
  i + runLen (!c) (row.drop i)

/-- The candidate positions examined by the guard-pattern search starting
from offset `rowOffset` with required first-run colour `c`: the first
position at or after `rowOffset` of colour `c`, and every later start of a
run of colour `c`. -/
def IsCandidate (row : List Bool) (c : Bool) (rowOffset p : Nat) : Prop :=
  row[p]? = some c ∧
    (p = nextColorIndex row c rowOffset ∨
      (nextColorIndex row c rowOffset < p ∧ row[p - 1]? = some (!c)))

/-- Modelled from the spec: the sliding loop of
`UPCEANReader::FindGuardPattern` (body absent from the repository).  At
candidate position `p`, record `pattern.length` runs and score them; on
acceptance return the `(begin, end)` span, otherwise slide the window by the
first two recorded runs (reaching the next candidate of the same colour).
`fuel` bounds the recursion; `row.length + 1` is always sufficient. -/
def fgpLoop (row : List Bool) (pattern : List Nat) : Nat → Nat → Option (Nat × Nat)
  | _, 0 => none
  | p, fuel + 1 =>
    match RecordPattern row p pattern.length with
    | none => none
    | some (cs, e) =>
      if acceptedB cs pattern then some (p, e)
      else
        match cs with
        | c0 :: c1 :: _ => fgpLoop row pattern (p + c0 + c1) fuel
        | _ => none

/-- Modelled from the spec: `UPCEANReader::FindGuardPattern` (body absent
from the repository).  Slides a window of `pattern.length` runs across the
row starting at `rowOffset`; `whiteFirst` gives the required colour of the
first run (`true` is white, i.e. pixel value `false`).  Returns the
`(begin, end)` pixel span of the first candidate scoring within the
acceptance threshold, `none` (NotFound) if the row is exhausted. -/
def FindGuardPattern (row : List Bool) (rowOffset : Nat) (whiteFirst : Bool)
    (pattern : List Nat) : Option (Nat × Nat) :=
  fgpLoop row pattern (nextColorIndex row (!whiteFirst) rowOffset) (row.length + 1)

/-- Modelled from the spec: `UPCEANReader::FindStartGuardPattern` (body
absent from the repository).  Wraps `FindGuardPattern` with the start/end
pattern and `whiteFirst = true`, searching from the beginning of the row. -/
def FindStartGuardPattern (row : List Bool) : Option (Nat × Nat) :=
  FindGuardPattern row 0 true START_END_PATTERN

/-- Index and value of the least defined score in a list of optional
variance scores (earliest index on ties); `none` if no score is defined. -/
def bestMatch : List (Option ℚ) → Option (Nat × ℚ)
  | [] => none
  | none :: t => (bestMatch t).map (fun p => (p.1 + 1, p.2))
  | some v :: t =>
    match bestMatch t with
    | some (i, w) => if w < v then some (i + 1, w) else some (0, v)
    | none => some (0, v)

/-- Modelled from the spec: `UPCEANReader::DecodeDigit` (body absent from
the repository).  Records a 4-run run-length vector at `rowOffset`, scores
it against every candidate pattern, and keeps the lowest-scoring candidate;
if that score is within the maximum-average-variance threshold, returns the
matched pattern index (the digit value) together with the pixel column
immediately after the recorded runs; otherwise `none` (NotFound). -/
def DecodeDigit (row : List Bool) (rowOffset : Nat) (patterns : List (List Nat)) :
    Option (Nat × Nat) :=
  match RecordPattern row rowOffset 4 with
  | none => none
  | some (cs, e) =>
    match bestMatch (patterns.map (fun p => PatternMatchVariance cs p MAX_INDIVIDUAL_VARIANCE)) with
    | none => none
    | some (i, v) => if v < MAX_AVG_VARIANCE then some (i, e) else none

/-- The ten ASCII digit characters. -/
def asciiDigits : List Char := ['0', '1', '2', '3', '4', '5', '6', '7', '8', '9']

/-- Whether a character is an ASCII digit. -/
def isAsciiDigit (c : Char) : Bool := asciiDigits.contains c

/-- Numeric value of an ASCII digit character. -/
def digitVal (c : Char) : Nat := c.toNat - 48

/-- Modelled from the spec: the weighted checksum total of
`UPCEANReader::CheckStandardUPCEANChecksum` (body absent from the
repository), computed positionally from the left: a digit at distance `k`
from the right end of the string (the check digit has `k = 1`) has weight 3
when `k` is even and weight 1 when `k` is odd. -/
def checksumTotal : List Char → Nat
  | [] => 0
  | ch :: t => (if (t.length + 1) % 2 = 0 then 3 else 1) * digitVal ch + checksumTotal t

/-- Modelled from the spec: `UPCEANReader::CheckStandardUPCEANChecksum`
(body absent from the repository).  Fails with `FormatError` if any
character is not an ASCII digit; otherwise succeeds exactly when the
weighted total is divisible by 10, failing with `ChecksumError` otherwise. -/
def CheckStandardUPCEANChecksum (s : List Char) : ErrorStatus :=
  if s.all isAsciiDigit then
    if checksumTotal s % 10 = 0 then ErrorStatus.NoError else ErrorStatus.ChecksumError
  else ErrorStatus.FormatError

/-- Modelled from the spec: the base-class virtual
`UPCEANReader::checkChecksum` (body absent from the repository); per its
documented contract it returns `CheckStandardUPCEANChecksum(s)`. -/
def checkChecksum (s : List Char) : ErrorStatus :=
  CheckStandardUPCEANChecksum s

/-- Alternating weighted sum used to state the checksum rule the way the
spec words it: weights 3, 1, 3, 1, … over a list of digits, starting with 3
when `w3` is `true`. -/
def altWeighted : Bool → List Nat → Nat
  | _, [] => 0
  | w3, d :: t => (if w3 then 3 else 1) * d + altWeighted (!w3) t

/-- The checksum total exactly as the spec words it: treat the rightmost
digit as the check digit; moving left from the digit immediately left of it,
alternate weights 3, 1, 3, 1, …; sum `digit * weight` over the data digits
and add the check digit itself. -/
def specChecksumTotal (s : List Char) : Nat :=
  match (s.map digitVal).reverse with
  | [] => 0
  | check :: data => check + altWeighted true data

/-- A decode outcome (spec section 3): either decoded text, symbology
identifier, source row index and pixel-column span, or a typed failure. -/
inductive DecodeOutcome where
  | success (text : List Char) (format : BarcodeFormat) (rowNumber xBegin xEnd : Nat)
  | failure (kind : FailureKind)
deriving DecidableEq

/-- The capability set of a concrete UPC/EAN symbology variant (spec section
9): the format-specific middle decoder and the overridable format, checksum
rule and end-guard search of `UPCEANReader`. -/
structure Symbology where
  supportedFormat : BarcodeFormat
  decodeMiddle : List Bool → Nat → Nat → Except FailureKind (Nat × List Char)
  checkChecksum : List Char → ErrorStatus
  decodeEnd : List Bool → Nat → Except FailureKind (Nat × Nat)

/-- The states of the row-decoder state machine (spec section 4.5). -/
inductive RowDecodeState where
  | searchingStartGuard
  | decodingMiddle (startBegin startEnd : Nat)
  | searchingEndGuard (startBegin : Nat) (text : List Char) (rowOffset : Nat)
  | validatingChecksum (startBegin : Nat) (text : List Char) (endEnd : Nat)
  | done (outcome : DecodeOutcome)

/-- Modelled from the spec: one transition of the row-decoder state machine
of section 4.5 (the body of `UPCEANReader::decodeRow` is absent from the
repository). -/
def rowDecodeStep (sym : Symbology) (rowNumber : Nat) (row : List Bool) :
    RowDecodeState → RowDecodeState
  | .searchingStartGuard =>
    match FindStartGuardPattern row with
    | none => .done (.failure .notFound)
    | some (b, e) => .decodingMiddle b e
  | .decodingMiddle b e =>
    match sym.decodeMiddle row b e with
    | .error k => .done (.failure k)
    | .ok (off, text) => .searchingEndGuard b text off
  | .searchingEndGuard b text off =>
    match sym.decodeEnd row off with
    | .error k => .done (.failure k)
    | .ok (_, ee) => .validatingChecksum b text ee
  | .validatingChecksum b text ee =>
    match sym.checkChecksum text with
    | .NoError => .done (.success text sym.supportedFormat rowNumber b ee)
    | .FormatError => .done (.failure .formatError)
    | .ChecksumError => .done (.failure .checksumError)
    | .NotFound => .done (.failure .notFound)
  | .done o => .done o

/-- Outcome carried by a final state (the machine reaches `done` within four
steps; other states yield the default NotFound). -/
def extractOutcome : RowDecodeState → DecodeOutcome
  | .done o => o
  | _ => .failure .notFound

/-- Modelled from the spec: the public `UPCEANReader::decodeRow(rowNumber,
row, hints)` (body absent from the repository) — run the section 4.5 state
machine from `SearchingStartGuard` to completion.  The hint configuration is
passed through unmodified, hence an arbitrary type `H`. -/
def decodeRow {H : Type} (sym : Symbology) (rowNumber : Nat) (row : List Bool)
    (_hints : H) : DecodeOutcome :=
  extractOutcome ((rowDecodeStep sym rowNumber row)^[4] RowDecodeState.searchingStartGuard)

/-- Modelled from the spec: the protected overload
`UPCEANReader::decodeRow(rowNumber, row, startGuardBegin, startGuardEnd,
hints)` (body absent from the repository) — decode middle, locate the end
guard, validate the checksum, and assemble the outcome, given the already
located start-guard span. -/
def decodeRowFromGuard {H : Type} (sym : Symbology) (rowNumber : Nat) (row : List Bool)
    (startBegin startEnd : Nat) (_hints : H) : DecodeOutcome :=
  match sym.decodeMiddle row startBegin startEnd with
  | .error k => .failure k
  | .ok (off, text) =>
    match sym.decodeEnd row off with
    | .error k => .failure k
    | .ok (_, ee) =>
      match sym.checkChecksum text with
      | .NoError => .success text sym.supportedFormat rowNumber startBegin ee
      | .FormatError => .failure .formatError
      | .ChecksumError => .failure .checksumError
      | .NotFound => .failure .notFound

/-- Modelled from the spec: the row loop of `Reader::doDecode` (body absent
from the repository), carrying the most informative failure seen so far: a
Checksum or Format failure is retained in preference to a plain NotFound. -/
def doDecodeGo {H : Type} (sym : Symbology) (hints : H) :
    List (Nat × List Bool) → FailureKind → DecodeOutcome
  | [], best => .failure best
  | (n, r) :: rest, best =>
    match decodeRow sym n r hints with
    | .success t f rn b e => .success t f rn b e
    | .failure k => doDecodeGo sym hints rest (if best = FailureKind.notFound then k else best)

/-- Modelled from the spec: the row-sampling driver `Reader::doDecode` (body
absent from the repository).  `rows` are the sampled rows of the image with
their row numbers (the sampling schedule and the "try harder" density are
the caller's concern).  Returns the first successful row decode, else the
most informative failure observed. -/
def doDecode {H : Type} (sym : Symbology) (hints : H) (rows : List (Nat × List Bool)) :
    DecodeOutcome :=
  doDecodeGo sym hints rows FailureKind.notFound

/-- A concrete symbology used to instantiate the generic row-decoder and
driver theorems on explicit inputs: its middle decoder always reports a
checksum failure. -/
def witnessSymbology : Symbology where
  supportedFormat := BarcodeFormat.UPC_A
  decodeMiddle := fun _ _ _ => Except.error FailureKind.checksumError
  checkChecksum := fun s => CheckStandardUPCEANChecksum s
  decodeEnd := fun _ _ => Except.error FailureKind.notFound

/-! ### Lemmas about runs -/

theorem runLen_le (c : Bool) : ∀ l : List Bool, runLen c l ≤ l.length := by
  intro l
  induction l with
  | nil => simp [runLen]
  | cons x t ih =>
    by_cases h : x = c
    · simp [runLen, h]; omega
    · simp [runLen, h]

theorem runLen_take (c : Bool) : ∀ l : List Bool, l.take (runLen c l) = List.replicate (runLen c l) c := by
  intro l
  induction l with
  | nil => simp [runLen]
  | cons x t ih =>
    by_cases h : x = c
    · subst h; simp [runLen, List.replicate_succ, ih]
    · simp [runLen, h]

theorem runLen_getElem (c : Bool) : ∀ l : List Bool, runLen c l < l.length →
    l[runLen c l]? = some (!c) := by
  intro l
  induction l with
  | nil => simp [runLen]
  | cons x t ih =>
    intro hlt
    by_cases h : x = c
    · subst h
      simpa [runLen] using ih (by simpa [runLen] using hlt)
    · have : x = !c := by cases x <;> cases c <;> simp_all
      simp [runLen, h, this]

theorem runLen_pos (c : Bool) (l : List Bool) (h : l.head? = some c) : 0 < runLen c l := by
  cases l with
  | nil => simp at h
  | cons x t =>
    simp at h
    simp [runLen, h]

theorem runLen_eq_zero_of_nil (c : Bool) : runLen c [] = 0 := rfl

theorem altColor_succ (c : Bool) (k : Nat) : altColor c (k + 1) = altColor (!c) k := by
  unfold altColor
  by_cases h : k % 2 = 0
  · have h1 : (k + 1) % 2 = 1 := by omega
    simp [h, h1]
  · have h1 : (k + 1) % 2 = 0 := by omega
    simp [h, h1]

theorem drop_head?_eq (l : List Bool) (i : Nat) : (l.drop i).head? = l[i]? := by
  rw [List.head?_eq_getElem?, List.getElem?_drop, Nat.add_zero]

/-- Success of `recordLoop` yields exactly `K` positive counters, summing to
the distance scanned, whose expansion reproduces the scanned pixels, the
following pixel (if any) having the next alternating colour. -/
theorem recordLoop_sound (row : List Bool) :
    ∀ (K : Nat) (c : Bool) (i : Nat) (cs : List Nat) (e : Nat),
      i ≤ row.length →
      (i < row.length → row[i]? = some c) →
      recordLoop row c i K = some (cs, e) →
      cs.length = K ∧ (∀ n ∈ cs, 0 < n) ∧ i + cs.sum = e ∧ e ≤ row.length ∧
        (row.drop i).take (e - i) = runsExpand c cs ∧
        (e < row.length → row[e]? = some (altColor c K)) := by
  intro K
  induction K with
  | zero =>
    intro c i cs e hi hcol h
    simp only [recordLoop, Option.some.injEq, Prod.mk.injEq] at h
    obtain ⟨rfl, rfl⟩ := h
    refine ⟨rfl, by simp, by simp, hi, by simp [runsExpand], ?_⟩
    intro hlt
    simpa [altColor] using hcol hlt
  | succ K ih =>
    intro c i cs e hi hcol h
    simp only [recordLoop] at h
    by_cases hn : runLen c (row.drop i) = 0
    · rw [if_pos hn] at h
      exact absurd h (by simp)
    · rw [if_neg hn, Option.map_eq_some'] at h
      obtain ⟨p, hrec, hpair⟩ := h
      obtain ⟨cs1, e1⟩ := p
      simp only [Prod.mk.injEq] at hpair
      obtain ⟨hcs, he⟩ := hpair
      subst hcs
      subst he
      set n := runLen c (row.drop i) with hn_def
      have hlen : n ≤ row.length - i := by
        have := runLen_le c (row.drop i)
        simpa [← hn_def] using this
      have hin : i + n ≤ row.length := by omega
      have hcol' : i + n < row.length → row[i + n]? = some (!c) := by
        intro hlt
        have hlt' : n < (row.drop i).length := by simp; omega
        have h0 := runLen_getElem c (row.drop i) (hn_def ▸ hlt')
        rw [List.getElem?_drop] at h0
        exact hn_def ▸ h0
      obtain ⟨h1, h2, h3, h4, h5, h6⟩ := ih (!c) (i + n) cs1 e1 hin hcol' hrec
      have hnpos : 0 < n := Nat.pos_of_ne_zero hn
      refine ⟨by simp [h1], ?_, by simp; omega, h4, ?_, ?_⟩
      · intro m hm
        rcases List.mem_cons.mp hm with rfl | hm
        · exact hnpos
        · exact h2 m hm
      · have he : e1 - i = n + (e1 - (i + n)) := by omega
        rw [he, List.take_add, runsExpand]
        congr 1
        · have ht := runLen_take c (row.drop i)
          rw [← hn_def] at ht
          exact ht
        · rw [List.drop_drop]
          exact h5
      · intro hlt
        rw [altColor_succ]
        exact h6 hlt

theorem numRuns_cons_le (a : Bool) (t : List Bool) : numRuns t ≤ numRuns (a :: t) := by
  cases t with
  | nil => simp [numRuns]
  | cons b t' =>
    by_cases h : a = b <;> simp [numRuns, h]

theorem numRuns_drop_le (l : List Bool) : ∀ m : Nat, numRuns (l.drop m) ≤ numRuns l := by
  induction l with
  | nil => intro m; simp
  | cons a t ih =>
    intro m
    cases m with
    | zero => simp
    | succ m' =>
      calc numRuns ((a :: t).drop (m' + 1)) = numRuns (t.drop m') := by simp
        _ ≤ numRuns t := ih m'
        _ ≤ numRuns (a :: t) := numRuns_cons_le a t

/-- Splitting off the maximal head run decrements the run count. -/
theorem numRuns_head_run : ∀ (l : List Bool) (c : Bool), l.head? = some c →
    numRuns l = 1 + numRuns (l.drop (runLen c l)) := by
  intro l
  induction l with
  | nil => intro c h; simp at h
  | cons x t ih =>
    intro c h
    have hx : x = c := by simpa using h
    subst hx
    cases t with
    | nil => simp [numRuns, runLen]
    | cons b t' =>
      by_cases hb : b = x
      · subst hb
        have key := ih b rfl
        calc numRuns (b :: b :: t') = numRuns (b :: t') := by simp [numRuns]
          _ = 1 + numRuns ((b :: t').drop (runLen b (b :: t'))) := key
          _ = 1 + numRuns ((b :: b :: t').drop (runLen b (b :: b :: t'))) := by
              have hr : runLen b (b :: b :: t') = runLen b (b :: t') + 1 := by
                simp [runLen]
              rw [hr, List.drop_succ_cons]
      · have hxb : x ≠ b := fun hgoal => hb hgoal.symm
        have hrl : runLen x (x :: b :: t') = 1 := by simp [runLen, hb]
        simp [numRuns, hxb, hrl]

/-- The loop `recordLoop` succeeds exactly when at least `K` maximal runs remain. -/
theorem recordLoop_isSome (row : List Bool) :
    ∀ (K : Nat) (c : Bool) (i : Nat),
      (i < row.length → row[i]? = some c) →
      ((recordLoop row c i K).isSome ↔ K ≤ numRuns (row.drop i)) := by
  intro K
  induction K with
  | zero =>
    intro c i _
    simp [recordLoop]
  | succ K ih =>
    intro c i hcol
    simp only [recordLoop]
    by_cases hn : runLen c (row.drop i) = 0
    · rw [if_pos hn]
      have hnil : row.drop i = [] := by
        by_contra hne
        have hi : i < row.length := by
          by_contra hge
          exact hne (List.drop_eq_nil_of_le (by omega))
        have hhead : (row.drop i).head? = some c := by
          rw [drop_head?_eq]; exact hcol hi
        have := runLen_pos c (row.drop i) hhead
        omega
      rw [hnil]
      simp [numRuns]
    · rw [if_neg hn]
      set n := runLen c (row.drop i) with hn_def
      have hne : row.drop i ≠ [] := by
        intro hnil
        rw [hnil] at hn_def
        exact hn (hn_def ▸ rfl)
      have hi : i < row.length := by
        by_contra hge
        exact hne (List.drop_eq_nil_of_le (by omega))
      have hhead : (row.drop i).head? = some c := by
        rw [drop_head?_eq]; exact hcol hi
      have hcol' : i + n < row.length → row[i + n]? = some (!c) := by
        intro hlt
        have hlt' : n < (row.drop i).length := by simp; omega
        have h0 := runLen_getElem c (row.drop i) (hn_def ▸ hlt')
        rw [List.getElem?_drop] at h0
        exact hn_def ▸ h0
      have hsplit : numRuns (row.drop i) = 1 + numRuns (row.drop (i + n)) := by
        have h0 := numRuns_head_run (row.drop i) c hhead
        rw [List.drop_drop] at h0
        exact hn_def ▸ h0
      have hmap : (Option.map (fun p => (n :: p.1, p.2)) (recordLoop row (!c) (i + n) K)).isSome
          = (recordLoop row (!c) (i + n) K).isSome := by
        cases recordLoop row (!c) (i + n) K <;> rfl
      rw [hmap, ih (!c) (i + n) hcol']
      omega

theorem getElem?_isSome_lt {α : Type} {l : List α} {i : Nat} {c : α} (h : l[i]? = some c) :
    i < l.length := by
  by_contra hge
  rw [List.getElem?_eq_none (by omega)] at h
  exact absurd h (by simp)

/-- Characterization of a successful `RecordPattern`. -/
theorem recordPattern_sound (row : List Bool) (start K : Nat) (cs : List Nat) (e : Nat)
    (h : RecordPattern row start K = some (cs, e)) :
    ∃ c, row[start]? = some c ∧ cs.length = K ∧ (∀ n ∈ cs, 0 < n) ∧
      start + cs.sum = e ∧ e ≤ row.length ∧
      (row.drop start).take (e - start) = runsExpand c cs ∧
      (e < row.length → row[e]? = some (altColor c K)) := by
  cases hc : row[start]? with
  | none =>
    have hnone : RecordPattern row start K = none := by
      unfold RecordPattern; rw [hc]
    rw [hnone] at h
    exact absurd h (by simp)
  | some c =>
    have heq : RecordPattern row start K = recordLoop row c start K := by
      unfold RecordPattern; rw [hc]
    rw [heq] at h
    have hlt : start < row.length := getElem?_isSome_lt hc
    obtain ⟨h1, h2, h3, h4, h5, h6⟩ :=
      recordLoop_sound row K c start cs e (by omega) (fun _ => hc) h
    exact ⟨c, hc ▸ rfl, h1, h2, h3, h4, h5, h6⟩

/-- Failure: `RecordPattern` fails exactly when the start is out of range or fewer
than `K` maximal runs remain from the start. -/
theorem recordPattern_none_iff (row : List Bool) (start K : Nat) :
    RecordPattern row start K = none ↔
      row.length ≤ start ∨ numRuns (row.drop start) < K := by
  cases hc : row[start]? with
  | none =>
    have hnone : RecordPattern row start K = none := by
      unfold RecordPattern; rw [hc]
    have hge : row.length ≤ start := by
      by_contra hlt
      rw [List.getElem?_eq_getElem (by omega)] at hc
      exact absurd hc (by simp)
    simp [hnone, hge]
  | some c =>
    have heq : RecordPattern row start K = recordLoop row c start K := by
      unfold RecordPattern; rw [hc]
    rw [heq]
    have hlt : start < row.length := getElem?_isSome_lt hc
    have hiff := recordLoop_isSome row K c start (fun _ => hc)
    constructor
    · intro hnone
      rw [hnone] at hiff
      simp at hiff
      omega
    · intro hor
      rcases hor with hge | hruns
      · omega
      · cases hrec : recordLoop row c start K with
        | none => rfl
        | some q =>
          rw [hrec] at hiff
          simp at hiff
          omega

/-- Failure of `RecordPattern` is monotone in the start position. -/
theorem recordPattern_none_mono (row : List Bool) (p q K : Nat) (hpq : p ≤ q)
    (h : RecordPattern row p K = none) : RecordPattern row q K = none := by
  rw [recordPattern_none_iff] at h ⊢
  rcases h with hge | hruns
  · left; omega
  · right
    have hdrop : row.drop q = (row.drop p).drop (q - p) := by
      rw [List.drop_drop]
      congr 1
      omega
    rw [hdrop]
    have := numRuns_drop_le (row.drop p) (q - p)
    omega

/-- Claim C3: `RecordPattern(row, start, counters)` fills all `K` slots with
consecutive alternating-colour run lengths beginning at `start` (the first
run having the colour of the pixel at `start`, each run non-empty, their
expansion reproducing the scanned pixels), fails with NotFound exactly when
the row ends before `K` runs are completed (the start is past the row or
fewer than `K` runs remain), and on success the sum of the recorded counters
equals `end - start` where `end` is the index reached after the scan. -/
theorem recordPattern_spec (row : List Bool) (start K : Nat) :
    (∀ cs e, RecordPattern row start K = some (cs, e) →
      cs.length = K ∧ (∀ n ∈ cs, 0 < n) ∧ start + cs.sum = e ∧ e ≤ row.length ∧
        ∃ c, row[start]? = some c ∧ (row.drop start).take (e - start) = runsExpand c cs)
    ∧ (RecordPattern row start K = none ↔
        row.length ≤ start ∨ numRuns (row.drop start) < K) := by
  constructor
  · intro cs e h
    obtain ⟨c, hc, h1, h2, h3, h4, h5, _⟩ := recordPattern_sound row start K cs e h
    exact ⟨h1, h2, h3, h4, c, hc, h5⟩
  · exact recordPattern_none_iff row start K

/-- Witness for claim C3 at a concrete row. -/
theorem recordPattern_spec_witness :
    RecordPattern [true, true, false, true] 0 3 = some ([2, 1, 1], 4) ∧
      [2, 1, 1].length = 3 ∧ 0 + [2, 1, 1].sum = 4 := by
  have h := (recordPattern_spec [true, true, false, true] 0 3).1 [2, 1, 1] 4 (by decide)
  exact ⟨by decide, h.1, h.2.2.1⟩

/-! ### Lemmas about variance scoring -/

theorem anyBad_iff (scale maxIV : ℚ) :
    ∀ (cnt pat : List Nat), cnt.length = pat.length →
      (anyBad scale maxIV (cnt.zip pat) = true ↔
        ∃ i, i < cnt.length ∧
          maxIV * ((pat.getD i 0 : ℚ) * scale) <
            |(cnt.getD i 0 : ℚ) - (pat.getD i 0 : ℚ) * scale|) := by
  intro cnt
  induction cnt with
  | nil =>
    intro pat _
    simp [anyBad]
  | cons c cs ih =>
    intro pat hlen
    cases pat with
    | nil => simp at hlen
    | cons p ps =>
      have hlen' : cs.length = ps.length := by simpa using hlen
      have hz : (c :: cs).zip (p :: ps) = (c, p) :: cs.zip ps := rfl
      rw [hz]
      simp only [anyBad]
      by_cases hbad : maxIV * ((p : ℚ) * scale) < |(c : ℚ) - (p : ℚ) * scale|
      · rw [if_pos hbad]
        constructor
        · intro _
          exact ⟨0, by simp, by simpa using hbad⟩
        · intro _; rfl
      · rw [if_neg hbad]
        rw [ih ps hlen']
        constructor
        · rintro ⟨j, hj, hcond⟩
          exact ⟨j + 1, by simp; omega, by simpa using hcond⟩
        · rintro ⟨i, hi, hcond⟩
          cases i with
          | zero => exact absurd (by simpa using hcond) hbad
          | succ j =>
            refine ⟨j, by simp at hi; omega, by simpa using hcond⟩

theorem sumDevs_eq (scale : ℚ) :
    ∀ (cnt pat : List Nat), cnt.length = pat.length →
      sumDevs scale (cnt.zip pat) =
        ∑ i ∈ Finset.range cnt.length,
          |(cnt.getD i 0 : ℚ) - (pat.getD i 0 : ℚ) * scale| := by
  intro cnt
  induction cnt with
  | nil =>
    intro pat _
    simp [sumDevs]
  | cons c cs ih =>
    intro pat hlen
    cases pat with
    | nil => simp at hlen
    | cons p ps =>
      have hlen' : cs.length = ps.length := by simpa using hlen
      have hz : (c :: cs).zip (p :: ps) = (c, p) :: cs.zip ps := rfl
      rw [hz]
      simp only [sumDevs, List.length_cons]
      rw [Finset.sum_range_succ']
      simp only [List.getD_cons_succ, List.getD_cons_zero]
      rw [ih ps hlen']
      ring

/-- If some index's deviation exceeds its individual bound, the score is
the rejecting one. -/
theorem pmv_reject_of (counters pattern : List Nat) (hlen : counters.length = pattern.length)
    (maxIV : ℚ) (i : Nat) (hi : i < counters.length)
    (hcond : maxIV * ((pattern.getD i 0 : ℚ) * ((counters.sum : ℚ) / (pattern.sum : ℚ))) <
      |(counters.getD i 0 : ℚ) -
        (pattern.getD i 0 : ℚ) * ((counters.sum : ℚ) / (pattern.sum : ℚ))|) :
    PatternMatchVariance counters pattern maxIV = none := by
  have hbad : anyBad ((counters.sum : ℚ) / (pattern.sum : ℚ)) maxIV
      (counters.zip pattern) = true := by
    rw [anyBad_iff _ _ counters pattern hlen]
    exact ⟨i, hi, hcond⟩
  simp only [PatternMatchVariance]
  rw [if_pos hbad]

/-- If every index's deviation is within its individual bound, the score is
the normalized total deviation. -/
theorem pmv_accept_of (counters pattern : List Nat) (hlen : counters.length = pattern.length)
    (maxIV : ℚ)
    (hall : ∀ i, i < counters.length →
      |(counters.getD i 0 : ℚ) -
          (pattern.getD i 0 : ℚ) * ((counters.sum : ℚ) / (pattern.sum : ℚ))| ≤
        maxIV * ((pattern.getD i 0 : ℚ) * ((counters.sum : ℚ) / (pattern.sum : ℚ)))) :
    PatternMatchVariance counters pattern maxIV =
      some ((∑ i ∈ Finset.range counters.length,
        |(counters.getD i 0 : ℚ) -
          (pattern.getD i 0 : ℚ) * ((counters.sum : ℚ) / (pattern.sum : ℚ))|) /
        (counters.sum : ℚ)) := by
  have hbad : anyBad ((counters.sum : ℚ) / (pattern.sum : ℚ)) maxIV
      (counters.zip pattern) = false := by
    rw [Bool.eq_false_iff]
    intro htrue
    rw [anyBad_iff _ _ counters pattern hlen] at htrue
    obtain ⟨i, hi, hcond⟩ := htrue
    exact absurd hcond (not_lt.mpr (hall i hi))
  simp only [PatternMatchVariance]
  rw [if_neg (by rw [hbad]; simp)]
  rw [sumDevs_eq _ counters pattern hlen]

/-- Claim C1: for counters and pattern of equal length `K` with positive
sums, `PatternMatchVariance` returns the rejecting (unbounded) score —
modelled as `none` — if for some index `i` the deviation
`|countersᵢ - patternᵢ·scale|` exceeds
`maxIndividualVariance · patternᵢ·scale` (with
`scale = Σ counters / Σ pattern`), regardless of the other indices;
otherwise it returns `Σᵢ |countersᵢ - patternᵢ·scale| / Σ counters`. -/
theorem patternMatchVariance_spec (counters pattern : List Nat) (K : Nat) (maxIV : ℚ)
    (hc : counters.length = K) (hp : pattern.length = K)
    (hcs : 0 < counters.sum) (hps : 0 < pattern.sum) :
    ((∃ i, i < K ∧
        maxIV * ((pattern.getD i 0 : ℚ) * ((counters.sum : ℚ) / (pattern.sum : ℚ))) <
          |(counters.getD i 0 : ℚ) -
            (pattern.getD i 0 : ℚ) * ((counters.sum : ℚ) / (pattern.sum : ℚ))|) →
      PatternMatchVariance counters pattern maxIV = none)
    ∧ ((∀ i, i < K →
        |(counters.getD i 0 : ℚ) -
            (pattern.getD i 0 : ℚ) * ((counters.sum : ℚ) / (pattern.sum : ℚ))| ≤
          maxIV * ((pattern.getD i 0 : ℚ) * ((counters.sum : ℚ) / (pattern.sum : ℚ)))) →
      PatternMatchVariance counters pattern maxIV =
        some ((∑ i ∈ Finset.range K,
          |(counters.getD i 0 : ℚ) -
            (pattern.getD i 0 : ℚ) * ((counters.sum : ℚ) / (pattern.sum : ℚ))|) /
          (counters.sum : ℚ))) := by
  have hlen : counters.length = pattern.length := by omega
  constructor
  · intro hex
    obtain ⟨i, hi, hcond⟩ := hex
    exact pmv_reject_of counters pattern hlen maxIV i (by omega) hcond
  · intro hall
    rw [pmv_accept_of counters pattern hlen maxIV (fun i hi => hall i (by omega)), hc]

/-- Witness for claim C1 at a concrete counter/pattern pair: the deviation
at index 0 exceeds the bound, so the score is the rejecting one. -/
theorem patternMatchVariance_spec_witness :
    PatternMatchVariance [5, 1] [1, 1] (1 / 2) = none :=
  (patternMatchVariance_spec [5, 1] [1, 1] 2 (1 / 2) rfl rfl (by decide) (by decide)).1
    ⟨0, by norm_num, by norm_num⟩

/-- Claim C8 counterexample: against the claim "for every non-degenerate
pattern `p` and every threshold value `t`, `PatternMatchVariance(p, p, t)`
equals 0", the all-positive pattern `[1]` with the negative threshold `-1`
yields the rejecting score (`none`), not 0: a zero deviation still exceeds a
negative individual-variance bound. -/
theorem patternMatchVariance_self_cex :
    PatternMatchVariance [1] [1] (-1) ≠ some 0 ∧
      PatternMatchVariance [1] [1] (-1) = none := by
  have h1 : PatternMatchVariance [1] [1] (-1) = none := by
    simp only [PatternMatchVariance]
    rw [if_pos]
    have hz : ([1] : List Nat).zip [1] = [((1 : Nat), (1 : Nat))] := rfl
    rw [hz]
    simp only [anyBad]
    norm_num
  exact ⟨by rw [h1]; simp, h1⟩

theorem anyBad_self (t : ℚ) (ht : 0 ≤ t) :
    ∀ l : List Nat, (∀ x ∈ l, 0 < x) → anyBad 1 t (l.zip l) = false := by
  intro l
  induction l with
  | nil => intro _; rfl
  | cons c cs ih =>
    intro hpos
    have hc : 0 < c := hpos c (by simp)
    have hz : (c :: cs).zip (c :: cs) = (c, c) :: cs.zip cs := rfl
    rw [hz]
    simp only [anyBad]
    rw [if_neg]
    · exact ih (fun x hx => hpos x (by simp [hx]))
    · rw [mul_one, sub_self, abs_zero, not_lt]
      positivity

theorem sumDevs_self : ∀ l : List Nat, sumDevs 1 (l.zip l) = 0 := by
  intro l
  induction l with
  | nil => rfl
  | cons c cs ih =>
    have hz : (c :: cs).zip (c :: cs) = (c, c) :: cs.zip cs := rfl
    rw [hz]
    simp only [sumDevs]
    rw [mul_one, sub_self, abs_zero, ih, add_zero]

theorem pmv_self_eq (p : List Nat) (hpos : ∀ x ∈ p, 0 < x)
    (t : ℚ) (ht : 0 ≤ t) : PatternMatchVariance p p t = some 0 := by
  cases p with
  | nil => simp [PatternMatchVariance, anyBad, sumDevs]
  | cons c cs =>
    have hc : 0 < c := hpos c (by simp)
    have hsum : 0 < ((c :: cs).sum : ℚ) := by
      have : 0 < (c :: cs).sum := by simp; omega
      exact_mod_cast this
    have hscale : ((c :: cs).sum : ℚ) / ((c :: cs).sum : ℚ) = 1 :=
      div_self (ne_of_gt hsum)
    simp only [PatternMatchVariance, hscale]
    rw [if_neg (by rw [anyBad_self t ht _ hpos]; simp)]
    rw [sumDevs_self, zero_div]

/-- Claim C8 (amended): for every pattern `p` with all entries positive and
every NONNEGATIVE threshold `t`, scoring `p` against itself gives a perfect
score: `PatternMatchVariance(p, p, t) = 0`. -/
theorem patternMatchVariance_self (p : List Nat) (hpos : ∀ x ∈ p, 0 < x)
    (t : ℚ) (ht : 0 ≤ t) : PatternMatchVariance p p t = some 0 :=
  pmv_self_eq p hpos t ht

/-- Witness for the amended claim C8 at a concrete pattern. -/
theorem patternMatchVariance_self_witness :
    PatternMatchVariance [1, 2] [1, 2] 0 = some 0 :=
  patternMatchVariance_self [1, 2] (by decide) 0 (le_refl 0)

/-! ### Lemmas about the checksum -/

theorem altWeighted_append_single (d : Nat) :
    ∀ (l : List Nat) (w3 : Bool),
      altWeighted w3 (l ++ [d]) =
        altWeighted w3 l +
          (if (if l.length % 2 = 0 then w3 else !w3) then 3 else 1) * d := by
  intro l
  induction l with
  | nil =>
    intro w3
    simp [altWeighted]
  | cons x t ih =>
    intro w3
    simp only [List.cons_append, altWeighted, List.length_cons]
    have hconv : t.append [d] = t ++ [d] := rfl
    rw [hconv, ih (!w3)]
    have hpar : (if t.length % 2 = 0 then !w3 else !(!w3)) =
        (if (t.length + 1) % 2 = 0 then w3 else !w3) := by
      by_cases h : t.length % 2 = 0
      · have h1 : (t.length + 1) % 2 ≠ 0 := by omega
        simp [h, h1]
      · have h1 : (t.length + 1) % 2 = 0 := by omega
        simp [h, h1]
    rw [hpar]
    ring

/-- The positional weighting of the model agrees with the right-to-left
alternating weighting of the spec. -/
theorem checksumTotal_eq_spec : ∀ s : List Char, checksumTotal s = specChecksumTotal s := by
  intro s
  induction s with
  | nil => rfl
  | cons ch t ih =>
    have hrevmap : ((ch :: t).map digitVal).reverse = (t.map digitVal).reverse ++ [digitVal ch] := by
      simp
    cases hrev : (t.map digitVal).reverse with
    | nil =>
      have ht : t = [] := by
        have : t.map digitVal = [] := by
          have := congrArg List.reverse hrev
          simpa using this
        simpa using this
      subst ht
      simp [checksumTotal, specChecksumTotal, altWeighted]
    | cons chk data =>
      have hlen : t.length = data.length + 1 := by
        have h1 : (t.map digitVal).length = (chk :: data).length := by
          rw [← hrev]; simp
        simpa using h1
      have hspec : specChecksumTotal (ch :: t) =
          chk + altWeighted true (data ++ [digitVal ch]) := by
        unfold specChecksumTotal
        rw [hrevmap, hrev]
        rfl
      have hspec_t : specChecksumTotal t = chk + altWeighted true data := by
        unfold specChecksumTotal
        rw [hrev]
      rw [hspec, altWeighted_append_single]
      simp only [checksumTotal]
      rw [ih, hspec_t, hlen]
      have hw : (if (data.length + 1 + 1) % 2 = 0 then 3 else 1) =
          (if (if data.length % 2 = 0 then true else !true) then 3 else 1) := by
        by_cases h : data.length % 2 = 0
        · have h1 : (data.length + 1 + 1) % 2 = 0 := by omega
          simp [h, h1]
        · have h1 : (data.length + 1 + 1) % 2 ≠ 0 := by omega
          simp [h, h1]
      rw [hw]
      ring

/-- Claim C2: for every string of ASCII digit characters,
`CheckStandardUPCEANChecksum` succeeds iff the sum of `digit · weight` over
the data digits — weights alternating 3, 1, 3, 1, … moving left from the
digit immediately left of the rightmost check digit, which gets weight 3 —
plus the check digit itself is divisible by 10; any non-digit character
yields a Format failure; it succeeds for `"036000291452"` and fails the
checksum when the final digit is replaced by any other digit. -/
theorem checkStandardUPCEANChecksum_spec :
    (∀ s : List Char, (∀ ch ∈ s, isAsciiDigit ch = true) →
      (CheckStandardUPCEANChecksum s = ErrorStatus.NoError ↔ specChecksumTotal s % 10 = 0))
    ∧ (∀ s : List Char, (∃ ch ∈ s, isAsciiDigit ch = false) →
      CheckStandardUPCEANChecksum s = ErrorStatus.FormatError)
    ∧ CheckStandardUPCEANChecksum ['0', '3', '6', '0', '0', '0', '2', '9', '1', '4', '5', '2']
        = ErrorStatus.NoError
    ∧ (∀ ch : Char, isAsciiDigit ch = true → ch ≠ '2' →
      CheckStandardUPCEANChecksum (['0', '3', '6', '0', '0', '0', '2', '9', '1', '4', '5'] ++ [ch])
        = ErrorStatus.ChecksumError) := by
  refine ⟨?_, ?_, by decide, ?_⟩
  · intro s hall
    have hallb : s.all isAsciiDigit = true := List.all_eq_true.mpr hall
    unfold CheckStandardUPCEANChecksum
    rw [if_pos hallb, checksumTotal_eq_spec]
    by_cases h : specChecksumTotal s % 10 = 0
    · simp [h]
    · simp [h]
  · intro s hex
    have hallb : s.all isAsciiDigit = false := by
      obtain ⟨ch, hmem, hch⟩ := hex
      rw [List.all_eq_false]
      exact ⟨ch, hmem, by simp [hch]⟩
    unfold CheckStandardUPCEANChecksum
    rw [hallb]
    rfl
  · intro ch hdig hne
    have hmem : ch ∈ asciiDigits := by
      have := hdig
      unfold isAsciiDigit at this
      exact List.mem_of_elem_eq_true this
    simp only [asciiDigits, List.mem_cons, List.mem_singleton] at hmem
    rcases hmem with rfl | rfl | rfl | rfl | rfl | rfl | rfl | rfl | rfl | hmem
    · decide
    · decide
    · exact absurd rfl hne
    · decide
    · decide
    · decide
    · decide
    · decide
    · decide
    · rcases hmem with rfl | h0
      · decide
      · exact absurd h0 (by simp)

/-- Witness for claim C2: replacing the final check digit of the canonical
UPC-A string by `'5'` fails the checksum. -/
theorem checkStandardUPCEANChecksum_spec_witness :
    CheckStandardUPCEANChecksum (['0', '3', '6', '0', '0', '0', '2', '9', '1', '4', '5'] ++ ['5'])
      = ErrorStatus.ChecksumError :=
  checkStandardUPCEANChecksum_spec.2.2.2 '5' (by decide) (by decide)

/-- Claim C10: the base-class virtual `UPCEANReader::checkChecksum` returns
exactly the same outcome as the static `CheckStandardUPCEANChecksum` on
every digit string; the two embeddings are equal as functions. -/
theorem checkChecksum_eq_checkStandard :
    ∀ s : List Char, checkChecksum s = CheckStandardUPCEANChecksum s :=
  fun _ => rfl

/-! ### Lemmas about the backward scan -/

/-- Scanning backward from `i` on `row` is scanning forward from
`row.length - i` on the mirrored row, with the counts reversed. -/
theorem recordLoopRev_corr (row : List Bool) :
    ∀ (K : Nat) (c : Bool) (i : Nat), i ≤ row.length →
      recordLoopRev row c i K =
        (recordLoop row.reverse c (row.length - i) K).map (fun p => p.1.reverse) := by
  intro K
  induction K with
  | zero =>
    intro c i _
    simp [recordLoopRev, recordLoop]
  | succ K ih =>
    intro c i hi
    have hdrop : row.reverse.drop (row.length - i) = (row.take i).reverse := by
      rw [List.reverse_take]
    simp only [recordLoopRev, recordLoop, runLenRev, hdrop]
    by_cases hn : runLen c ((row.take i).reverse) = 0
    · rw [if_pos hn, if_pos hn]
      rfl
    · rw [if_neg hn, if_neg hn]
      set n := runLen c ((row.take i).reverse) with hn_def
      have hni : n ≤ i := by
        have h1 := runLen_le c ((row.take i).reverse)
        have h2 : ((row.take i).reverse).length = min i row.length := by simp
        rw [← hn_def] at h1
        omega
      have hpos : row.length - (i - n) = (row.length - i) + n := by omega
      have := ih (!c) (i - n) (by omega)
      rw [hpos] at this
      rw [this]
      cases hrl : recordLoop row.reverse (!c) (row.length - i + n) K with
      | none => rfl
      | some p =>
        simp [List.reverse_cons]

/-- Claim C7: whenever `RecordPatternInReverse(row, start, counters)`
succeeds, the resulting counters equal — after reordering to forward
orientation — the vector `RecordPattern` produces scanning forward from the
mirrored position on the mirrored row. -/
theorem recordPatternInReverse_mirror (row : List Bool) (start K : Nat) (cs : List Nat)
    (h : RecordPatternInReverse row start K = some cs) :
    ∃ e, RecordPattern row.reverse (row.length - start) K = some (cs.reverse, e) := by
  unfold RecordPatternInReverse at h
  by_cases h0 : start = 0
  · rw [if_pos h0] at h
    exact absurd h (by simp)
  · rw [if_neg h0] at h
    cases hc : row[start - 1]? with
    | none =>
      rw [hc] at h
      exact absurd h (by simp)
    | some c =>
      rw [hc] at h
      change recordLoopRev row c start K = some cs at h
      have hlt : start - 1 < row.length := getElem?_isSome_lt hc
      have hle : start ≤ row.length := by omega
      rw [recordLoopRev_corr row K c start hle] at h
      cases hrl : recordLoop row.reverse c (row.length - start) K with
      | none =>
        rw [hrl] at h
        exact absurd h (by simp)
      | some p =>
        rw [hrl] at h
        simp only [Option.map_some', Option.some.injEq] at h
        refine ⟨p.2, ?_⟩
        have hidx : row.reverse[row.length - start]? = some c := by
          rw [List.getElem?_reverse (by omega)]
          have harith : row.length - 1 - (row.length - start) = start - 1 := by omega
          rw [harith]
          exact hc
        have heq : RecordPattern row.reverse (row.length - start) K
            = recordLoop row.reverse c (row.length - start) K := by
          unfold RecordPattern
          rw [hidx]
        rw [heq, hrl, ← h]
        simp

/-- Witness for claim C7 at a concrete row and start position. -/
theorem recordPatternInReverse_mirror_witness :
    ∃ e, RecordPattern (List.reverse [true, false, true, false])
        ([true, false, true, false].length - 4) 3 = some (List.reverse [1, 1, 1], e) :=
  recordPatternInReverse_mirror [true, false, true, false] 4 3 [1, 1, 1] (by decide)

/-! ### Lemmas about the best-match selection -/

theorem bestMatch_cons_none (t : List (Option ℚ)) :
    bestMatch (none :: t) = (bestMatch t).map (fun p => (p.1 + 1, p.2)) := rfl

theorem bestMatch_cons_some_none (v : ℚ) (t : List (Option ℚ)) (h : bestMatch t = none) :
    bestMatch (some v :: t) = some (0, v) := by
  unfold bestMatch
  rw [h]

theorem bestMatch_cons_some_some (v : ℚ) (t : List (Option ℚ)) (i : Nat) (w : ℚ)
    (h : bestMatch t = some (i, w)) :
    bestMatch (some v :: t) = if w < v then some (i + 1, w) else some (0, v) := by
  unfold bestMatch
  rw [h]

theorem bestMatch_none_iff : ∀ l : List (Option ℚ), bestMatch l = none ↔ ∀ x ∈ l, x = none := by
  intro l
  induction l with
  | nil => simp [bestMatch]
  | cons x t ih =>
    cases x with
    | none =>
      rw [bestMatch_cons_none]
      constructor
      · intro h
        have ht : bestMatch t = none := by
          cases hbt : bestMatch t with
          | none => rfl
          | some p => rw [hbt] at h; exact absurd h (by simp)
        intro y hy
        rcases List.mem_cons.mp hy with rfl | hy
        · rfl
        · exact ih.mp ht y hy
      · intro hall
        have ht : bestMatch t = none := ih.mpr (fun y hy => hall y (List.mem_cons_of_mem _ hy))
        rw [ht]
        rfl
    | some v =>
      constructor
      · intro h
        cases hbt : bestMatch t with
        | none =>
          rw [bestMatch_cons_some_none v t hbt] at h
          exact absurd h (by simp)
        | some p =>
          obtain ⟨i, w⟩ := p
          rw [bestMatch_cons_some_some v t i w hbt] at h
          by_cases hw : w < v
          · rw [if_pos hw] at h; exact absurd h (by simp)
          · rw [if_neg hw] at h; exact absurd h (by simp)
      · intro hall
        exact absurd (hall (some v) (by simp)) (by simp)

theorem bestMatch_some_mem : ∀ (l : List (Option ℚ)) (i : Nat) (v : ℚ),
    bestMatch l = some (i, v) → l[i]? = some (some v) := by
  intro l
  induction l with
  | nil => intro i v h; exact absurd h (by simp [bestMatch])
  | cons x t ih =>
    intro i v h
    cases x with
    | none =>
      rw [bestMatch_cons_none] at h
      cases ht : bestMatch t with
      | none => rw [ht] at h; exact absurd h (by simp)
      | some p =>
        rw [ht] at h
        obtain ⟨i0, v0⟩ := p
        simp only [Option.map_some', Option.some.injEq, Prod.mk.injEq] at h
        obtain ⟨hi, hv⟩ := h
        subst hv
        rw [← hi]
        simpa using ih i0 v0 ht
    | some u =>
      cases ht : bestMatch t with
      | none =>
        rw [bestMatch_cons_some_none u t ht] at h
        simp only [Option.some.injEq, Prod.mk.injEq] at h
        obtain ⟨hi, hv⟩ := h
        subst hv
        rw [← hi]
        simp
      | some p =>
        obtain ⟨i0, w0⟩ := p
        rw [bestMatch_cons_some_some u t i0 w0 ht] at h
        by_cases hw : w0 < u
        · rw [if_pos hw] at h
          simp only [Option.some.injEq, Prod.mk.injEq] at h
          obtain ⟨hi, hv⟩ := h
          subst hv
          rw [← hi]
          simpa using ih i0 w0 ht
        · rw [if_neg hw] at h
          simp only [Option.some.injEq, Prod.mk.injEq] at h
          obtain ⟨hi, hv⟩ := h
          subst hv
          rw [← hi]
          simp

theorem bestMatch_some_le : ∀ (l : List (Option ℚ)) (i : Nat) (v : ℚ),
    bestMatch l = some (i, v) → ∀ (j : Nat) (w : ℚ), l[j]? = some (some w) → v ≤ w := by
  intro l
  induction l with
  | nil => intro i v h; exact absurd h (by simp [bestMatch])
  | cons x t ih =>
    intro i v h j w hj
    cases x with
    | none =>
      rw [bestMatch_cons_none] at h
      cases ht : bestMatch t with
      | none => rw [ht] at h; exact absurd h (by simp)
      | some p =>
        rw [ht] at h
        obtain ⟨i0, v0⟩ := p
        simp only [Option.map_some', Option.some.injEq, Prod.mk.injEq] at h
        obtain ⟨_, hv⟩ := h
        subst hv
        cases j with
        | zero => exact absurd hj (by simp)
        | succ j0 => exact ih i0 v0 ht j0 w (by simpa using hj)
    | some u =>
      cases ht : bestMatch t with
      | none =>
        rw [bestMatch_cons_some_none u t ht] at h
        simp only [Option.some.injEq, Prod.mk.injEq] at h
        obtain ⟨_, hv⟩ := h
        subst hv
        cases j with
        | zero =>
          have hwu : u = w := by simpa using hj
          exact le_of_eq hwu
        | succ j0 =>
          have hmem : some w ∈ t := List.getElem?_mem (by simpa using hj)
          have := (bestMatch_none_iff t).mp ht (some w) hmem
          exact absurd this (by simp)
      | some p =>
        obtain ⟨i0, w0⟩ := p
        rw [bestMatch_cons_some_some u t i0 w0 ht] at h
        by_cases hw : w0 < u
        · rw [if_pos hw] at h
          simp only [Option.some.injEq, Prod.mk.injEq] at h
          obtain ⟨_, hv⟩ := h
          subst hv
          cases j with
          | zero =>
            have hwu : u = w := by simpa using hj
            rw [← hwu]
            exact le_of_lt hw
          | succ j0 => exact ih i0 w0 ht j0 w (by simpa using hj)
        · rw [if_neg hw] at h
          simp only [Option.some.injEq, Prod.mk.injEq] at h
          obtain ⟨_, hv⟩ := h
          subst hv
          cases j with
          | zero =>
            have hwu : u = w := by simpa using hj
            exact le_of_eq hwu
          | succ j0 =>
            have hle := ih i0 w0 ht j0 w (by simpa using hj)
            have := not_lt.mp hw
            linarith

theorem maxAvg_pos : (0 : ℚ) < MAX_AVG_VARIANCE := by norm_num [MAX_AVG_VARIANCE]

theorem maxIV_nonneg : (0 : ℚ) ≤ MAX_INDIVIDUAL_VARIANCE := by
  norm_num [MAX_INDIVIDUAL_VARIANCE]

/-- Claim C6: `DecodeDigit(row, rowOffset, patterns, counters, resultOffset)`
records a 4-run run-length vector at `rowOffset`, selects the candidate
pattern with the lowest variance score, and — if that lowest score is within
the fixed maximum-average-variance threshold — reports the corresponding
digit value and sets the result offset to the pixel column immediately after
the recorded runs; it fails with NotFound exactly when no candidate scores
within the threshold. -/
theorem decodeDigit_spec (row : List Bool) (rowOffset : Nat) (patterns : List (List Nat)) :
    (∀ d off, DecodeDigit row rowOffset patterns = some (d, off) →
      ∃ cs e v, RecordPattern row rowOffset 4 = some (cs, e) ∧ off = e ∧
        d < patterns.length ∧
        PatternMatchVariance cs (patterns.getD d []) MAX_INDIVIDUAL_VARIANCE = some v ∧
        v < MAX_AVG_VARIANCE ∧
        ∀ j w, j < patterns.length →
          PatternMatchVariance cs (patterns.getD j []) MAX_INDIVIDUAL_VARIANCE = some w →
          v ≤ w)
    ∧ (DecodeDigit row rowOffset patterns = none ↔
        ¬ ∃ cs e j w, RecordPattern row rowOffset 4 = some (cs, e) ∧ j < patterns.length ∧
          PatternMatchVariance cs (patterns.getD j []) MAX_INDIVIDUAL_VARIANCE = some w ∧
          w < MAX_AVG_VARIANCE) := by
  cases hrp : RecordPattern row rowOffset 4 with
  | none =>
    have hdd : DecodeDigit row rowOffset patterns = none := by
      unfold DecodeDigit
      rw [hrp]
    constructor
    · intro d off h
      rw [hdd] at h
      exact absurd h (by simp)
    · rw [hdd]
      simp only [true_iff]
      rintro ⟨cs, e, j, w, hr, -, -, -⟩
      exact absurd hr (by simp)
  | some pe =>
    obtain ⟨cs, e⟩ := pe
    have hcse : ∀ cs' e', some (cs, e) = some (cs', e') →
        cs' = cs ∧ e' = e := by
      intro cs' e' h
      have h2 := Option.some.inj h
      exact ⟨(congrArg Prod.fst h2).symm, (congrArg Prod.snd h2).symm⟩
    have hsc : ∀ j, j < patterns.length →
        (patterns.map (fun p => PatternMatchVariance cs p MAX_INDIVIDUAL_VARIANCE))[j]? =
          some (PatternMatchVariance cs (patterns.getD j []) MAX_INDIVIDUAL_VARIANCE) := by
      intro j hj
      rw [List.getElem?_map, List.getElem?_eq_getElem hj]
      simp [List.getD_eq_getElem?_getD, List.getElem?_eq_getElem hj]
    have hlen_scores :
        (patterns.map (fun p => PatternMatchVariance cs p MAX_INDIVIDUAL_VARIANCE)).length =
          patterns.length := by simp
    have hdd1 : DecodeDigit row rowOffset patterns =
        (match bestMatch (patterns.map (fun p =>
            PatternMatchVariance cs p MAX_INDIVIDUAL_VARIANCE)) with
          | none => none
          | some (i, v) => if v < MAX_AVG_VARIANCE then some (i, e) else none) := by
      unfold DecodeDigit
      rw [hrp]
    cases hbm : bestMatch (patterns.map (fun p =>
        PatternMatchVariance cs p MAX_INDIVIDUAL_VARIANCE)) with
    | none =>
      have hall := (bestMatch_none_iff _).mp hbm
      have hdd : DecodeDigit row rowOffset patterns = none := by
        rw [hdd1, hbm]
      constructor
      · intro d off h
        rw [hdd] at h
        exact absurd h (by simp)
      · rw [hdd]
        simp only [true_iff]
        rintro ⟨cs', e', j, w, hr, hj, hpv, -⟩
        obtain ⟨rfl, rfl⟩ := hcse cs' e' hr
        have hj' := hsc j hj
        rw [hpv] at hj'
        have hmem := List.getElem?_mem hj'
        exact absurd (hall _ hmem) (by simp)
    | some p =>
      obtain ⟨i, v⟩ := p
      have hmem := bestMatch_some_mem _ i v hbm
      have hi : i < patterns.length := by
        have := getElem?_isSome_lt hmem
        omega
      have hpv_i : PatternMatchVariance cs (patterns.getD i [])
          MAX_INDIVIDUAL_VARIANCE = some v := by
        have heq := hsc i hi
        rw [heq] at hmem
        exact Option.some.inj hmem
      have hmin : ∀ j w, j < patterns.length →
          PatternMatchVariance cs (patterns.getD j []) MAX_INDIVIDUAL_VARIANCE = some w →
          v ≤ w := by
        intro j w hj hpv
        have hj' := hsc j hj
        rw [hpv] at hj'
        exact bestMatch_some_le _ i v hbm j w hj'
      by_cases hv : v < MAX_AVG_VARIANCE
      · have hdd2 : DecodeDigit row rowOffset patterns =
            if v < MAX_AVG_VARIANCE then some (i, e) else none := by
          rw [hdd1, hbm]
        have hdd : DecodeDigit row rowOffset patterns = some (i, e) := by
          rw [hdd2, if_pos hv]
        constructor
        · intro d off h
          rw [hdd] at h
          have hde : i = d ∧ e = off := by simpa using h
          obtain ⟨rfl, rfl⟩ := hde
          exact ⟨cs, e, v, rfl, rfl, hi, hpv_i, hv, hmin⟩
        · rw [hdd]
          constructor
          · intro h
            exact absurd h (by simp)
          · intro hnot
            exact absurd ⟨cs, e, i, v, rfl, hi, hpv_i, hv⟩ hnot
      · have hdd2 : DecodeDigit row rowOffset patterns =
            if v < MAX_AVG_VARIANCE then some (i, e) else none := by
          rw [hdd1, hbm]
        have hdd : DecodeDigit row rowOffset patterns = none := by
          rw [hdd2, if_neg hv]
        constructor
        · intro d off h
          rw [hdd] at h
          exact absurd h (by simp)
        · rw [hdd]
          simp only [true_iff]
          rintro ⟨cs', e', j, w, hr, hj, hpv, hw⟩
          obtain ⟨rfl, rfl⟩ := hcse cs' e' hr
          have := hmin j w hj hpv
          exact absurd hw (not_lt.mpr (le_trans (not_lt.mp hv) this))

theorem pmv_L0_self :
    PatternMatchVariance [3, 2, 1, 1] [3, 2, 1, 1] MAX_INDIVIDUAL_VARIANCE = some 0 :=
  pmv_self_eq [3, 2, 1, 1] (by decide) MAX_INDIVIDUAL_VARIANCE maxIV_nonneg

theorem pmv_L0_mismatch :
    PatternMatchVariance [3, 2, 1, 1] [1, 1, 3, 2] MAX_INDIVIDUAL_VARIANCE = none :=
  pmv_reject_of [3, 2, 1, 1] [1, 1, 3, 2] rfl MAX_INDIVIDUAL_VARIANCE 0 (by decide)
    (by norm_num [MAX_INDIVIDUAL_VARIANCE, List.getD_cons_zero, List.sum_cons, List.sum_nil])

/-- Witness for claim C6: a clean `{3,2,1,1}` digit cell is matched against
pattern index 0 with the result offset just past the four runs. -/
theorem decodeDigit_spec_witness :
    ∃ cs e v, RecordPattern [true, true, true, false, false, true, false] 0 4 = some (cs, e) ∧
      (7 : Nat) = e ∧ (0 : Nat) < [[3, 2, 1, 1], [1, 1, 3, 2]].length ∧
      PatternMatchVariance cs ([[3, 2, 1, 1], [1, 1, 3, 2]].getD 0 [])
        MAX_INDIVIDUAL_VARIANCE = some v ∧
      v < MAX_AVG_VARIANCE ∧
      ∀ j w, j < [[3, 2, 1, 1], [1, 1, 3, 2]].length →
        PatternMatchVariance cs ([[3, 2, 1, 1], [1, 1, 3, 2]].getD j [])
          MAX_INDIVIDUAL_VARIANCE = some w →
        v ≤ w := by
  have hrp : RecordPattern [true, true, true, false, false, true, false] 0 4
      = some ([3, 2, 1, 1], 7) := by decide
  have hmap : ([[3, 2, 1, 1], [1, 1, 3, 2]].map
      (fun p => PatternMatchVariance [3, 2, 1, 1] p MAX_INDIVIDUAL_VARIANCE))
      = [some 0, none] := by
    simp only [List.map_cons, List.map_nil]
    rw [pmv_L0_self, pmv_L0_mismatch]
  have hbm : bestMatch [some (0 : ℚ), none] = some (0, 0) := rfl
  have hdd1 : DecodeDigit [true, true, true, false, false, true, false] 0
      [[3, 2, 1, 1], [1, 1, 3, 2]] =
      (match bestMatch ([[3, 2, 1, 1], [1, 1, 3, 2]].map (fun p =>
          PatternMatchVariance [3, 2, 1, 1] p MAX_INDIVIDUAL_VARIANCE)) with
        | none => none
        | some (i, v) => if v < MAX_AVG_VARIANCE then some (i, 7) else none) := by
    unfold DecodeDigit
    rw [hrp]
  have hdd2 : DecodeDigit [true, true, true, false, false, true, false] 0
      [[3, 2, 1, 1], [1, 1, 3, 2]] =
      if (0 : ℚ) < MAX_AVG_VARIANCE then some (0, 7) else none := by
    rw [hdd1, hmap, hbm]
  have hdd : DecodeDigit [true, true, true, false, false, true, false] 0
      [[3, 2, 1, 1], [1, 1, 3, 2]] = some (0, 7) := by
    rw [hdd2, if_pos maxAvg_pos]
  exact (decodeDigit_spec [true, true, true, false, false, true, false] 0
    [[3, 2, 1, 1], [1, 1, 3, 2]]).1 0 7 hdd

/-! ### Lemmas about the guard-pattern search -/

theorem nextColorIndex_ge (row : List Bool) (c : Bool) (i : Nat) :
    i ≤ nextColorIndex row c i := by
  unfold nextColorIndex
  omega

theorem nextColorIndex_color (row : List Bool) (c : Bool) (i : Nat)
    (h : nextColorIndex row c i < row.length) :
    row[nextColorIndex row c i]? = some c := by
  unfold nextColorIndex at *
  have hlt : runLen (!c) (row.drop i) < (row.drop i).length := by
    simp
    omega
  have := runLen_getElem (!c) (row.drop i) hlt
  rw [List.getElem?_drop] at this
  simpa using this

theorem qualifiesB_of_none (row : List Bool) (pattern : List Nat) (q : Nat)
    (h : RecordPattern row q pattern.length = none) : qualifiesB row pattern q = false := by
  unfold qualifiesB
  rw [h]

theorem qualifiesB_of_some (row : List Bool) (pattern : List Nat) (q : Nat)
    (cs : List Nat) (e : Nat) (h : RecordPattern row q pattern.length = some (cs, e)) :
    qualifiesB row pattern q = acceptedB cs pattern := by
  unfold qualifiesB
  rw [h]

theorem acceptedB_of_pmv_none (cs pattern : List Nat)
    (h : PatternMatchVariance cs pattern MAX_INDIVIDUAL_VARIANCE = none) :
    acceptedB cs pattern = false := by
  unfold acceptedB
  rw [h]

theorem acceptedB_of_pmv_some (cs pattern : List Nat) (v : ℚ)
    (h : PatternMatchVariance cs pattern MAX_INDIVIDUAL_VARIANCE = some v) :
    acceptedB cs pattern = decide (v < MAX_AVG_VARIANCE) := by
  unfold acceptedB
  rw [h]

theorem acceptedB_self_pos (p : List Nat) (hpos : ∀ x ∈ p, 0 < x) :
    acceptedB p p = true := by
  rw [acceptedB_of_pmv_some p p 0 (pmv_self_eq p hpos _ maxIV_nonneg)]
  exact decide_eq_true maxAvg_pos

/-- A single measured run always matches a single positive pattern entry
perfectly (the scale absorbs the width exactly). -/
theorem acceptedB_single (c0 n : Nat) (hc0 : 0 < c0) (hn : 0 < n) :
    acceptedB [c0] [n] = true := by
  have hc0q : (0 : ℚ) < (c0 : ℚ) := by exact_mod_cast hc0
  have hnq : ((n : ℚ)) ≠ 0 := by
    have : (0 : ℚ) < (n : ℚ) := by exact_mod_cast hn
    exact ne_of_gt this
  have hmul : (n : ℚ) * ((c0 : ℚ) / (n : ℚ)) = (c0 : ℚ) := by
    field_simp
  have hall : ∀ i, i < ([c0] : List Nat).length →
      |(([c0] : List Nat).getD i 0 : ℚ) -
          (([n] : List Nat).getD i 0 : ℚ) *
            ((([c0] : List Nat).sum : ℚ) / (([n] : List Nat).sum : ℚ))| ≤
        MAX_INDIVIDUAL_VARIANCE *
          ((([n] : List Nat).getD i 0 : ℚ) *
            ((([c0] : List Nat).sum : ℚ) / (([n] : List Nat).sum : ℚ))) := by
    intro i hi
    have hi0 : i = 0 := by simpa using hi
    subst hi0
    simp only [List.getD_cons_zero, List.sum_cons, List.sum_nil, Nat.add_zero]
    rw [hmul, sub_self, abs_zero]
    have := maxIV_nonneg
    positivity
  have hpmv := pmv_accept_of [c0] [n] rfl MAX_INDIVIDUAL_VARIANCE hall
  have hzero : (∑ i ∈ Finset.range ([c0] : List Nat).length,
      |(([c0] : List Nat).getD i 0 : ℚ) -
        (([n] : List Nat).getD i 0 : ℚ) *
          ((([c0] : List Nat).sum : ℚ) / (([n] : List Nat).sum : ℚ))|) /
      (([c0] : List Nat).sum : ℚ) = 0 := by
    rw [show ([c0] : List Nat).length = 1 from rfl, Finset.sum_range_one]
    simp only [List.getD_cons_zero, List.sum_cons, List.sum_nil, Nat.add_zero]
    rw [hmul, sub_self, abs_zero, zero_div]
  rw [hzero] at hpmv
  rw [acceptedB_of_pmv_some _ _ 0 hpmv]
  exact decide_eq_true maxAvg_pos

/-- A single positive run never matches the degenerate pattern `[0]`. -/
theorem acceptedB_single_zero (c0 : Nat) (hc0 : 0 < c0) :
    acceptedB [c0] [0] = false := by
  have hc0q : (0 : ℚ) < (c0 : ℚ) := by exact_mod_cast hc0
  have hpmv : PatternMatchVariance [c0] [0] MAX_INDIVIDUAL_VARIANCE = none := by
    refine pmv_reject_of [c0] [0] rfl MAX_INDIVIDUAL_VARIANCE 0 (by simp) ?_
    simp only [List.getD_cons_zero, Nat.cast_zero, zero_mul, mul_zero, sub_zero]
    exact abs_pos.mpr (ne_of_gt hc0q)
  exact acceptedB_of_pmv_none _ _ hpmv

/-- The empty vector matches the empty pattern. -/
theorem acceptedB_nil : acceptedB [] [] = true := by
  rw [acceptedB_of_pmv_some [] [] 0 (pmv_self_eq [] (by simp) _ maxIV_nonneg)]
  exact decide_eq_true maxAvg_pos

/-- Pixel structure of a successful ≥2-run recording: the first run is `c0`
pixels of the start colour, the second `c1` pixels of the opposite colour,
and the pixel after both (if any) has the start colour again. -/
theorem slide_pixels (row : List Bool) (p K : Nat) (c0 c1 : Nat) (rest : List Nat) (e : Nat)
    (h : RecordPattern row p K = some (c0 :: c1 :: rest, e)) :
    ∃ c, row[p]? = some c ∧
      (∀ j, j < c0 → row[p + j]? = some c) ∧
      (∀ j, j < c1 → row[p + c0 + j]? = some (!c)) ∧
      (p + c0 + c1 < row.length → row[p + c0 + c1]? = some c) ∧
      0 < c0 ∧ 0 < c1 ∧ p + c0 + c1 ≤ e ∧ e ≤ row.length := by
  obtain ⟨c, hc, hlen, hpos, hsum, hele, hexp, hfin⟩ := recordPattern_sound row p K _ e h
  have hc0 : 0 < c0 := hpos c0 (by simp)
  have hc1 : 0 < c1 := hpos c1 (by simp)
  have hsum_ge : c0 + c1 ≤ (c0 :: c1 :: rest).sum := by
    simp only [List.sum_cons]
    have : 0 ≤ rest.sum := Nat.zero_le _
    omega
  have hpe : p + c0 + c1 ≤ e := by omega
  have hexp2 : runsExpand c (c0 :: c1 :: rest) =
      List.replicate c0 c ++ (List.replicate c1 (!c) ++ runsExpand c rest) := by
    simp [runsExpand]
  have hidx : ∀ j, j < e - p → row[p + j]? = (runsExpand c (c0 :: c1 :: rest))[j]? := by
    intro j hj
    rw [← hexp]
    rw [List.getElem?_take_of_lt hj, List.getElem?_drop]
  refine ⟨c, hc, ?_, ?_, ?_, hc0, hc1, hpe, hele⟩
  · intro j hj
    rw [hidx j (by omega), hexp2]
    rw [List.getElem?_append_left (by simp; omega)]
    exact List.getElem?_replicate_of_lt hj
  · intro j hj
    have harith : p + c0 + j = p + (c0 + j) := by omega
    rw [harith, hidx (c0 + j) (by omega), hexp2]
    rw [List.getElem?_append_right (by simp)]
    simp only [List.length_replicate, Nat.add_sub_cancel_left]
    rw [List.getElem?_append_left (by simp; omega)]
    exact List.getElem?_replicate_of_lt hj
  · intro hlt
    cases rest with
    | nil =>
      have he : e = p + c0 + c1 := by
        simp only [List.sum_cons, List.sum_nil] at hsum
        omega
      have hK : K = 2 := by simpa using hlen.symm
      have := hfin (by omega)
      rw [← he]
      rw [this, hK]
      simp [altColor]
    | cons r rs =>
      have hr : 0 < r := hpos r (by simp)
      have hsum3 : c0 + c1 < (c0 :: c1 :: r :: rs).sum := by
        simp only [List.sum_cons]
        omega
      have harith : p + c0 + c1 = p + (c0 + c1) := by omega
      rw [harith, hidx (c0 + c1) (by omega), hexp2]
      rw [List.getElem?_append_right (by simp)]
      simp only [List.length_replicate, Nat.add_sub_cancel_left]
      rw [List.getElem?_append_right (by simp)]
      simp only [List.length_replicate, Nat.sub_self]
      have : runsExpand c (r :: rs) = List.replicate r c ++ runsExpand (!c) rs := by
        simp [runsExpand]
      rw [this]
      rw [List.getElem?_append_left (by simp; omega)]
      exact List.getElem?_replicate_of_lt hr

/-- The result bundle returned for an accepted candidate. -/
theorem fgp_found (row : List Bool) (pattern : List Nat) (c : Bool) (rowOffset p : Nat)
    (cs : List Nat) (e : Nat)
    (hrp : RecordPattern row p pattern.length = some (cs, e))
    (hcand : IsCandidate row c rowOffset p)
    (hacc : acceptedB cs pattern = true)
    (hC : ∀ q, IsCandidate row c rowOffset q → q < p → qualifiesB row pattern q = false) :
    IsCandidate row c rowOffset p ∧ qualifiesB row pattern p = true ∧
      (∃ cs2, RecordPattern row p pattern.length = some (cs2, e)) ∧
      (∀ q, IsCandidate row c rowOffset q → q < p → qualifiesB row pattern q = false) :=
  ⟨hcand, by rw [qualifiesB_of_some row pattern p cs e hrp]; exact hacc, ⟨cs, hrp⟩, hC⟩

/-- Correctness of the sliding guard-pattern loop: started anywhere on the
candidate chain with no earlier candidate qualifying, it returns the first
qualifying candidate's span, and returns `none` exactly when no candidate
qualifies at all. -/
theorem fgpLoop_correct (row : List Bool) (pattern : List Nat) (c : Bool) (rowOffset : Nat) :
    ∀ (fuel p : Nat),
      row.length < p + fuel →
      nextColorIndex row c rowOffset ≤ p →
      (p = nextColorIndex row c rowOffset ∨
        (row[p]? = some c ∧ row[p - 1]? = some (!c)) ∨ row.length ≤ p) →
      (∀ q, IsCandidate row c rowOffset q → q < p → qualifiesB row pattern q = false) →
      ((∀ b e, fgpLoop row pattern p fuel = some (b, e) →
          IsCandidate row c rowOffset b ∧ qualifiesB row pattern b = true ∧
          (∃ cs, RecordPattern row b pattern.length = some (cs, e)) ∧
          (∀ q, IsCandidate row c rowOffset q → q < b → qualifiesB row pattern q = false))
        ∧ (fgpLoop row pattern p fuel = none →
            ∀ q, IsCandidate row c rowOffset q → qualifiesB row pattern q = false)) := by
  intro fuel
  induction fuel with
  | zero =>
    intro p hfuel hge hB hC
    constructor
    · intro b e h
      exact absurd h (by simp [fgpLoop])
    · intro _ q hq
      by_cases hqp : q < p
      · exact hC q hq hqp
      · have hqlen : q < row.length := getElem?_isSome_lt hq.1
        exfalso
        omega
  | succ fuel ih =>
    intro p hfuel hge hB hC
    cases hrp : RecordPattern row p pattern.length with
    | none =>
      have heq : fgpLoop row pattern p (fuel + 1) = none := by
        unfold fgpLoop
        rw [hrp]
      constructor
      · intro b e h
        rw [heq] at h
        exact absurd h (by simp)
      · intro _ q hq
        by_cases hqp : q < p
        · exact hC q hq hqp
        · exact qualifiesB_of_none row pattern q
            (recordPattern_none_mono row p q pattern.length (by omega) hrp)
    | some pe =>
      obtain ⟨cs, e⟩ := pe
      obtain ⟨cp, hcp, hlen_cs, hpos_cs, hsum_cs, hele, hexp, hfin⟩ :=
        recordPattern_sound row p pattern.length cs e hrp
      have hplen : p < row.length := getElem?_isSome_lt hcp
      have hpc : row[p]? = some c := by
        rcases hB with hpe | ⟨h1, _⟩ | hl
        · rw [hpe]
          exact nextColorIndex_color row c rowOffset (hpe ▸ hplen)
        · exact h1
        · omega
      have hcand_p : IsCandidate row c rowOffset p := by
        rcases hB with hpe | ⟨h1, h2⟩ | hl
        · exact ⟨hpc, Or.inl hpe⟩
        · by_cases hp0 : p = nextColorIndex row c rowOffset
          · exact ⟨hpc, Or.inl hp0⟩
          · exact ⟨hpc, Or.inr ⟨by omega, h2⟩⟩
        · omega
      cases cs with
      | nil =>
        have hpat : pattern = [] := List.length_eq_zero.mp (by simpa using hlen_cs.symm)
        have heqif : fgpLoop row pattern p (fuel + 1) =
            if acceptedB [] pattern = true then some (p, e) else none := by
          unfold fgpLoop
          rw [hrp]
        have hacc : acceptedB [] pattern = true := by
          rw [hpat]
          exact acceptedB_nil
        have heq : fgpLoop row pattern p (fuel + 1) = some (p, e) := by
          rw [heqif, if_pos hacc]
        constructor
        · intro b e2 h
          rw [heq] at h
          have hbe : p = b ∧ e = e2 := by simpa using h
          obtain ⟨rfl, rfl⟩ := hbe
          exact fgp_found row pattern c rowOffset p [] e hrp hcand_p hacc hC
        · intro h
          rw [heq] at h
          exact absurd h (by simp)
      | cons c0 cstail =>
        cases cstail with
        | nil =>
          have hc0 : 0 < c0 := hpos_cs c0 (by simp)
          have hpat1 : pattern.length = 1 := by simpa using hlen_cs.symm
          obtain ⟨n, hn⟩ := List.length_eq_one.mp hpat1
          have heqif : fgpLoop row pattern p (fuel + 1) =
              if acceptedB [c0] pattern = true then some (p, e) else none := by
            unfold fgpLoop
            rw [hrp]
          by_cases hnz : n = 0
          · have hacc : acceptedB [c0] pattern = false := by
              rw [hn, hnz]
              exact acceptedB_single_zero c0 hc0
            have heq : fgpLoop row pattern p (fuel + 1) = none := by
              rw [heqif, if_neg (by rw [hacc]; simp)]
            constructor
            · intro b e2 h
              rw [heq] at h
              exact absurd h (by simp)
            · intro _ q hq
              by_cases hqp : q < p
              · exact hC q hq hqp
              · cases hrq : RecordPattern row q pattern.length with
                | none => exact qualifiesB_of_none row pattern q hrq
                | some pe2 =>
                  obtain ⟨cs2, e2⟩ := pe2
                  obtain ⟨cq, hcq, hlen2, hpos2, -, -, -, -⟩ :=
                    recordPattern_sound row q pattern.length cs2 e2 hrq
                  rw [hpat1] at hlen2
                  obtain ⟨m, hm⟩ := List.length_eq_one.mp hlen2
                  rw [qualifiesB_of_some row pattern q cs2 e2 hrq, hm, hn, hnz]
                  exact acceptedB_single_zero m (hpos2 m (by rw [hm]; simp))
          · have hacc : acceptedB [c0] pattern = true := by
              rw [hn]
              exact acceptedB_single c0 n hc0 (Nat.pos_of_ne_zero hnz)
            have heq : fgpLoop row pattern p (fuel + 1) = some (p, e) := by
              rw [heqif, if_pos hacc]
            constructor
            · intro b e2 h
              rw [heq] at h
              have hbe : p = b ∧ e = e2 := by simpa using h
              obtain ⟨rfl, rfl⟩ := hbe
              exact fgp_found row pattern c rowOffset p [c0] e hrp hcand_p hacc hC
            · intro h
              rw [heq] at h
              exact absurd h (by simp)
        | cons c1 rest =>
          obtain ⟨cP, hcp2, hrun1, hrun2, hnext, hc0, hc1, hpe, hele2⟩ :=
            slide_pixels row p pattern.length c0 c1 rest e hrp
          have hccc : cP = c := by
            rw [hcp2] at hpc
            exact Option.some.inj hpc
          rw [hccc] at hrun1 hrun2 hnext
          have heqif : fgpLoop row pattern p (fuel + 1) =
              if acceptedB (c0 :: c1 :: rest) pattern = true then some (p, e)
              else fgpLoop row pattern (p + c0 + c1) fuel := by
            conv_lhs => unfold fgpLoop
            rw [hrp]
          cases hacc : acceptedB (c0 :: c1 :: rest) pattern with
          | true =>
            have heq : fgpLoop row pattern p (fuel + 1) = some (p, e) := by
              rw [heqif, if_pos hacc]
            constructor
            · intro b e2 h
              rw [heq] at h
              have hbe : p = b ∧ e = e2 := by simpa using h
              obtain ⟨rfl, rfl⟩ := hbe
              exact fgp_found row pattern c rowOffset p (c0 :: c1 :: rest) e hrp hcand_p hacc hC
            · intro h
              rw [heq] at h
              exact absurd h (by simp)
          | false =>
            have hqp_false : qualifiesB row pattern p = false := by
              rw [qualifiesB_of_some row pattern p (c0 :: c1 :: rest) e hrp]
              exact hacc
            have heq : fgpLoop row pattern p (fuel + 1) =
                fgpLoop row pattern (p + c0 + c1) fuel := by
              rw [heqif, if_neg (by rw [hacc]; simp)]
            have hfuel2 : row.length < (p + c0 + c1) + fuel := by omega
            have hge2 : nextColorIndex row c rowOffset ≤ p + c0 + c1 := by omega
            have hB2 : p + c0 + c1 = nextColorIndex row c rowOffset ∨
                (row[p + c0 + c1]? = some c ∧ row[p + c0 + c1 - 1]? = some (!c)) ∨
                row.length ≤ p + c0 + c1 := by
              by_cases hlt : p + c0 + c1 < row.length
              · refine Or.inr (Or.inl ⟨hnext hlt, ?_⟩)
                have harith : p + c0 + c1 - 1 = p + c0 + (c1 - 1) := by omega
                rw [harith]
                exact hrun2 (c1 - 1) (by omega)
              · exact Or.inr (Or.inr (by omega))
            have hC2 : ∀ q, IsCandidate row c rowOffset q → q < p + c0 + c1 →
                qualifiesB row pattern q = false := by
              intro q hq hqp2
              by_cases hqp : q < p
              · exact hC q hq hqp
              · by_cases hqe : q = p
                · rw [hqe]
                  exact hqp_false
                · exfalso
                  have hpq : p < q := by omega
                  have hq2 : row[q - 1]? = some (!c) := by
                    rcases hq.2 with hq0 | ⟨-, h2⟩
                    · exfalso
                      omega
                    · exact h2
                  have hjlt : q - p < c0 + c1 := by omega
                  by_cases hjc0 : q - p < c0
                  · have hqcol : row[q - 1]? = some c := by
                      have harith : q - 1 = p + (q - p - 1) := by omega
                      rw [harith]
                      exact hrun1 (q - p - 1) (by omega)
                    rw [hqcol] at hq2
                    have hcc2 := Option.some.inj hq2
                    cases c <;> exact absurd hcc2 (by decide)
                  · have hqcol : row[q]? = some (!c) := by
                      have harith : q = p + c0 + (q - p - c0) := by omega
                      rw [harith]
                      exact hrun2 (q - p - c0) (by omega)
                    rw [hq.1] at hqcol
                    have hcc2 := Option.some.inj hqcol
                    cases c <;> exact absurd hcc2 (by decide)
            have hrec := ih (p + c0 + c1) hfuel2 hge2 hB2 hC2
            constructor
            · intro b e2 h
              rw [heq] at h
              exact hrec.1 b e2 h
            · intro h q hq
              rw [heq] at h
              exact hrec.2 h q hq

/-- Claim C5: `FindGuardPattern(row, rowOffset, whiteFirst, pattern, begin,
end)` returns the `(begin, end)` pixel span of the first candidate position
at or after `rowOffset` whose recorded run-length vector — its first run of
the colour required by `whiteFirst` — scores within the fixed acceptance
threshold against `pattern`, and fails with NotFound (here `none`) exactly
when the row is exhausted without any candidate position qualifying. -/
theorem findGuardPattern_spec (row : List Bool) (rowOffset : Nat) (whiteFirst : Bool)
    (pattern : List Nat) :
    (∀ b e, FindGuardPattern row rowOffset whiteFirst pattern = some (b, e) →
      IsCandidate row (!whiteFirst) rowOffset b ∧ qualifiesB row pattern b = true ∧
      (∃ cs, RecordPattern row b pattern.length = some (cs, e)) ∧
      ∀ q, IsCandidate row (!whiteFirst) rowOffset q → q < b →
        qualifiesB row pattern q = false)
    ∧ (FindGuardPattern row rowOffset whiteFirst pattern = none ↔
        ∀ q, IsCandidate row (!whiteFirst) rowOffset q →
          qualifiesB row pattern q = false) := by
  have hC0 : ∀ q, IsCandidate row (!whiteFirst) rowOffset q →
      q < nextColorIndex row (!whiteFirst) rowOffset → qualifiesB row pattern q = false := by
    intro q hq hlt
    exfalso
    rcases hq.2 with heq0 | ⟨hgt, -⟩
    · omega
    · omega
  have hmain := fgpLoop_correct row pattern (!whiteFirst) rowOffset (row.length + 1)
    (nextColorIndex row (!whiteFirst) rowOffset) (by omega) (le_refl _) (Or.inl rfl) hC0
  have hdef : FindGuardPattern row rowOffset whiteFirst pattern =
      fgpLoop row pattern (nextColorIndex row (!whiteFirst) rowOffset) (row.length + 1) := rfl
  constructor
  · intro b e h
    rw [hdef] at h
    exact hmain.1 b e h
  · constructor
    · intro h
      rw [hdef] at h
      exact hmain.2 h
    · intro hall
      cases hres : FindGuardPattern row rowOffset whiteFirst pattern with
      | none => rfl
      | some be =>
        obtain ⟨b, e⟩ := be
        exfalso
        rw [hdef] at hres
        have hsucc := hmain.1 b e hres
        have := hall b hsucc.1
        rw [hsucc.2.1] at this
        exact absurd this (by simp)

/-- Witness for claim C5: the row `white-black-white` matches the `{1,1,1}`
start/end guard pattern at its very first candidate position. -/
theorem findGuardPattern_spec_witness :
    IsCandidate [false, true, false] (!true) 0 0 ∧
      qualifiesB [false, true, false] [1, 1, 1] 0 = true ∧
      (∃ cs, RecordPattern [false, true, false] 0 ([1, 1, 1] : List Nat).length
        = some (cs, 3)) ∧
      ∀ q, IsCandidate [false, true, false] (!true) 0 q → q < 0 →
        qualifiesB [false, true, false] [1, 1, 1] q = false := by
  have hrp : RecordPattern [false, true, false] 0 ([1, 1, 1] : List Nat).length
      = some ([1, 1, 1], 3) := by decide
  have hacc : acceptedB [1, 1, 1] [1, 1, 1] = true := acceptedB_self_pos [1, 1, 1] (by decide)
  have h0 : FindGuardPattern [false, true, false] 0 true [1, 1, 1]
      = fgpLoop [false, true, false] [1, 1, 1] 0 4 := rfl
  have h1 : fgpLoop [false, true, false] [1, 1, 1] 0 4 =
      if acceptedB [1, 1, 1] [1, 1, 1] = true then some (0, 3)
      else fgpLoop [false, true, false] [1, 1, 1] (0 + 1 + 1) 3 := by
    conv_lhs => unfold fgpLoop
    rw [hrp]
  have hfgp : FindGuardPattern [false, true, false] 0 true [1, 1, 1] = some (0, 3) := by
    rw [h0, h1, if_pos hacc]
  exact (findGuardPattern_spec [false, true, false] 0 true [1, 1, 1]).1 0 3 hfgp

/-! ### Lemmas about the row decoder and the row-sampling driver -/

/-- Concrete start-guard location on the minimal white-black-white row,
shared by the row-decoder and driver witnesses. -/
theorem findStartGuard_www : FindStartGuardPattern [false, true, false] = some (0, 3) := by
  have hrp : RecordPattern [false, true, false] 0 START_END_PATTERN.length
      = some ([1, 1, 1], 3) := by decide
  have hacc : acceptedB [1, 1, 1] START_END_PATTERN = true := by
    rw [show START_END_PATTERN = [1, 1, 1] from rfl]
    exact acceptedB_self_pos [1, 1, 1] (by decide)
  have h0 : FindStartGuardPattern [false, true, false]
      = fgpLoop [false, true, false] START_END_PATTERN 0 4 := rfl
  have h1 : fgpLoop [false, true, false] START_END_PATTERN 0 4 =
      if acceptedB [1, 1, 1] START_END_PATTERN = true then some (0, 3)
      else fgpLoop [false, true, false] START_END_PATTERN (0 + 1 + 1) 3 := by
    conv_lhs => unfold fgpLoop
    rw [hrp]
  rw [h0, h1, if_pos hacc]

theorem rowDecodeStep_done (sym : Symbology) (rowNumber : Nat) (row : List Bool)
    (o : DecodeOutcome) :
    rowDecodeStep sym rowNumber row (RowDecodeState.done o) = RowDecodeState.done o := rfl

theorem rowDecodeStep_start (sym : Symbology) (rowNumber : Nat) (row : List Bool) :
    rowDecodeStep sym rowNumber row RowDecodeState.searchingStartGuard =
      (match FindStartGuardPattern row with
        | none => RowDecodeState.done (DecodeOutcome.failure FailureKind.notFound)
        | some (b, e) => RowDecodeState.decodingMiddle b e) := rfl

theorem rowDecodeStep_middle (sym : Symbology) (rowNumber : Nat) (row : List Bool)
    (b e : Nat) :
    rowDecodeStep sym rowNumber row (RowDecodeState.decodingMiddle b e) =
      (match sym.decodeMiddle row b e with
        | Except.error k => RowDecodeState.done (DecodeOutcome.failure k)
        | Except.ok (off, text) => RowDecodeState.searchingEndGuard b text off) := rfl

theorem rowDecodeStep_endguard (sym : Symbology) (rowNumber : Nat) (row : List Bool)
    (b : Nat) (text : List Char) (off : Nat) :
    rowDecodeStep sym rowNumber row (RowDecodeState.searchingEndGuard b text off) =
      (match sym.decodeEnd row off with
        | Except.error k => RowDecodeState.done (DecodeOutcome.failure k)
        | Except.ok (_, ee) => RowDecodeState.validatingChecksum b text ee) := rfl

theorem rowDecodeStep_validate (sym : Symbology) (rowNumber : Nat) (row : List Bool)
    (b : Nat) (text : List Char) (ee : Nat) :
    rowDecodeStep sym rowNumber row (RowDecodeState.validatingChecksum b text ee) =
      (match sym.checkChecksum text with
        | ErrorStatus.NoError =>
          RowDecodeState.done (DecodeOutcome.success text sym.supportedFormat rowNumber b ee)
        | ErrorStatus.FormatError => RowDecodeState.done (DecodeOutcome.failure FailureKind.formatError)
        | ErrorStatus.ChecksumError => RowDecodeState.done (DecodeOutcome.failure FailureKind.checksumError)
        | ErrorStatus.NotFound => RowDecodeState.done (DecodeOutcome.failure FailureKind.notFound)) := rfl

/-- Claim C9: the public `decodeRow(rowNumber, row, hints)` is equivalent to
first running `FindStartGuardPattern` and, on success, invoking the
protected overload with the found start-guard begin/end columns; when the
start-guard search fails, the public `decodeRow` returns that NotFound
failure. -/
theorem decodeRow_eq_guard (H : Type) (sym : Symbology) (rowNumber : Nat) (row : List Bool)
    (hints : H) :
    (FindStartGuardPattern row = none →
      decodeRow sym rowNumber row hints = DecodeOutcome.failure FailureKind.notFound)
    ∧ (∀ b e, FindStartGuardPattern row = some (b, e) →
      decodeRow sym rowNumber row hints = decodeRowFromGuard sym rowNumber row b e hints) := by
  have hit : decodeRow sym rowNumber row hints
      = extractOutcome (rowDecodeStep sym rowNumber row (rowDecodeStep sym rowNumber row
          (rowDecodeStep sym rowNumber row (rowDecodeStep sym rowNumber row
            RowDecodeState.searchingStartGuard)))) := rfl
  constructor
  · intro hsg
    have h1 : rowDecodeStep sym rowNumber row RowDecodeState.searchingStartGuard
        = RowDecodeState.done (DecodeOutcome.failure FailureKind.notFound) := by
      rw [rowDecodeStep_start, hsg]
    rw [hit, h1, rowDecodeStep_done, rowDecodeStep_done, rowDecodeStep_done]
    rfl
  · intro b e hsg
    have h1 : rowDecodeStep sym rowNumber row RowDecodeState.searchingStartGuard
        = RowDecodeState.decodingMiddle b e := by
      rw [rowDecodeStep_start, hsg]
    cases hdm : sym.decodeMiddle row b e with
    | error k =>
      have h2 : rowDecodeStep sym rowNumber row (RowDecodeState.decodingMiddle b e)
          = RowDecodeState.done (DecodeOutcome.failure k) := by
        rw [rowDecodeStep_middle, hdm]
      have hr : decodeRowFromGuard sym rowNumber row b e hints = DecodeOutcome.failure k := by
        unfold decodeRowFromGuard
        rw [hdm]
      rw [hit, h1, h2, rowDecodeStep_done, rowDecodeStep_done, hr]
      rfl
    | ok mt =>
      obtain ⟨off, text⟩ := mt
      have h2 : rowDecodeStep sym rowNumber row (RowDecodeState.decodingMiddle b e)
          = RowDecodeState.searchingEndGuard b text off := by
        rw [rowDecodeStep_middle, hdm]
      have hr1 : decodeRowFromGuard sym rowNumber row b e hints =
          (match sym.decodeEnd row off with
            | Except.error k => DecodeOutcome.failure k
            | Except.ok (_, ee) =>
              match sym.checkChecksum text with
              | ErrorStatus.NoError =>
                DecodeOutcome.success text sym.supportedFormat rowNumber b ee
              | ErrorStatus.FormatError => DecodeOutcome.failure FailureKind.formatError
              | ErrorStatus.ChecksumError => DecodeOutcome.failure FailureKind.checksumError
              | ErrorStatus.NotFound => DecodeOutcome.failure FailureKind.notFound) := by
        unfold decodeRowFromGuard
        rw [hdm]
      cases hde : sym.decodeEnd row off with
      | error k =>
        have h3 : rowDecodeStep sym rowNumber row (RowDecodeState.searchingEndGuard b text off)
            = RowDecodeState.done (DecodeOutcome.failure k) := by
          rw [rowDecodeStep_endguard, hde]
        rw [hit, h1, h2, h3, rowDecodeStep_done, hr1, hde]
        rfl
      | ok ge =>
        obtain ⟨eb, ee⟩ := ge
        have h3 : rowDecodeStep sym rowNumber row (RowDecodeState.searchingEndGuard b text off)
            = RowDecodeState.validatingChecksum b text ee := by
          rw [rowDecodeStep_endguard, hde]
        cases hcc : sym.checkChecksum text with
        | NoError =>
          have h4 : rowDecodeStep sym rowNumber row
              (RowDecodeState.validatingChecksum b text ee)
              = RowDecodeState.done
                (DecodeOutcome.success text sym.supportedFormat rowNumber b ee) := by
            rw [rowDecodeStep_validate, hcc]
          rw [hit, h1, h2, h3, h4, hr1, hde, hcc]
          rfl
        | NotFound =>
          have h4 : rowDecodeStep sym rowNumber row
              (RowDecodeState.validatingChecksum b text ee)
              = RowDecodeState.done (DecodeOutcome.failure FailureKind.notFound) := by
            rw [rowDecodeStep_validate, hcc]
          rw [hit, h1, h2, h3, h4, hr1, hde, hcc]
          rfl
        | FormatError =>
          have h4 : rowDecodeStep sym rowNumber row
              (RowDecodeState.validatingChecksum b text ee)
              = RowDecodeState.done (DecodeOutcome.failure FailureKind.formatError) := by
            rw [rowDecodeStep_validate, hcc]
          rw [hit, h1, h2, h3, h4, hr1, hde, hcc]
          rfl
        | ChecksumError =>
          have h4 : rowDecodeStep sym rowNumber row
              (RowDecodeState.validatingChecksum b text ee)
              = RowDecodeState.done (DecodeOutcome.failure FailureKind.checksumError) := by
            rw [rowDecodeStep_validate, hcc]
          rw [hit, h1, h2, h3, h4, hr1, hde, hcc]
          rfl

/-- Witness for claim C9: on the minimal row whose start guard sits at
columns [0, 3), the public row decode equals the protected overload invoked
with that span. -/
theorem decodeRow_eq_guard_witness :
    FindStartGuardPattern [false, true, false] = some (0, 3) ∧
      decodeRow witnessSymbology 0 [false, true, false] () =
        decodeRowFromGuard witnessSymbology 0 [false, true, false] 0 3 () :=
  ⟨findStartGuard_www,
    (decodeRow_eq_guard Unit witnessSymbology 0 [false, true, false] ()).2 0 3
      findStartGuard_www⟩

theorem doDecodeGo_nil {H : Type} (sym : Symbology) (hints : H) (best : FailureKind) :
    doDecodeGo sym hints [] best = DecodeOutcome.failure best := rfl

theorem doDecodeGo_cons {H : Type} (sym : Symbology) (hints : H) (n : Nat) (r : List Bool)
    (rest : List (Nat × List Bool)) (best : FailureKind) :
    doDecodeGo sym hints ((n, r) :: rest) best =
      (match decodeRow sym n r hints with
        | DecodeOutcome.success t f rn b e => DecodeOutcome.success t f rn b e
        | DecodeOutcome.failure k =>
          doDecodeGo sym hints rest (if best = FailureKind.notFound then k else best)) := rfl

/-- If the driver loop ends in failure, every sampled row failed. -/
theorem doDecodeGo_all_fail {H : Type} (sym : Symbology) (hints : H) :
    ∀ (rows : List (Nat × List Bool)) (best k : FailureKind),
      doDecodeGo sym hints rows best = DecodeOutcome.failure k →
      ∀ p ∈ rows, ∃ k2, decodeRow sym p.1 p.2 hints = DecodeOutcome.failure k2 := by
  intro rows
  induction rows with
  | nil =>
    intro best k _ p hp
    exact absurd hp (by simp)
  | cons hd rest ih =>
    obtain ⟨n, r⟩ := hd
    intro best k h p hp
    cases hd2 : decodeRow sym n r hints with
    | success t f rn b e =>
      have hgo : doDecodeGo sym hints ((n, r) :: rest) best
          = DecodeOutcome.success t f rn b e := by
        rw [doDecodeGo_cons, hd2]
      rw [hgo] at h
      exact absurd h (by simp)
    | failure k2 =>
      have hgo : doDecodeGo sym hints ((n, r) :: rest) best
          = doDecodeGo sym hints rest
              (if best = FailureKind.notFound then k2 else best) := by
        rw [doDecodeGo_cons, hd2]
      rw [hgo] at h
      rcases List.mem_cons.mp hp with rfl | hp2
      · exact ⟨k2, hd2⟩
      · exact ih _ k h p hp2

/-- Once the retained failure is informative, the loop never changes it. -/
theorem doDecodeGo_keeps {H : Type} (sym : Symbology) (hints : H) :
    ∀ (rows : List (Nat × List Bool)) (best k : FailureKind),
      best ≠ FailureKind.notFound →
      doDecodeGo sym hints rows best = DecodeOutcome.failure k → k = best := by
  intro rows
  induction rows with
  | nil =>
    intro best k _ h
    rw [doDecodeGo_nil] at h
    simpa using h.symm
  | cons hd rest ih =>
    obtain ⟨n, r⟩ := hd
    intro best k hbest h
    cases hd2 : decodeRow sym n r hints with
    | success t f rn b e =>
      have hgo : doDecodeGo sym hints ((n, r) :: rest) best
          = DecodeOutcome.success t f rn b e := by
        rw [doDecodeGo_cons, hd2]
      rw [hgo] at h
      exact absurd h (by simp)
    | failure k2 =>
      have hgo : doDecodeGo sym hints ((n, r) :: rest) best
          = doDecodeGo sym hints rest
              (if best = FailureKind.notFound then k2 else best) := by
        rw [doDecodeGo_cons, hd2]
      rw [hgo, if_neg hbest] at h
      exact ih best k hbest h

/-- If some sampled row failed informatively (not NotFound), the reported
failure is not NotFound. -/
theorem doDecodeGo_informative {H : Type} (sym : Symbology) (hints : H) :
    ∀ (rows : List (Nat × List Bool)) (best k : FailureKind),
      doDecodeGo sym hints rows best = DecodeOutcome.failure k →
      ((∃ p ∈ rows, ∃ k2, decodeRow sym p.1 p.2 hints = DecodeOutcome.failure k2 ∧
          k2 ≠ FailureKind.notFound) ∨ best ≠ FailureKind.notFound) →
      k ≠ FailureKind.notFound := by
  intro rows
  induction rows with
  | nil =>
    intro best k h hdisj
    rw [doDecodeGo_nil] at h
    have hk : k = best := by simpa using h.symm
    rcases hdisj with ⟨p, hp, -⟩ | hbest
    · exact absurd hp (by simp)
    · rw [hk]; exact hbest
  | cons hd rest ih =>
    obtain ⟨n, r⟩ := hd
    intro best k h hdisj
    cases hd2 : decodeRow sym n r hints with
    | success t f rn b e =>
      have hgo : doDecodeGo sym hints ((n, r) :: rest) best
          = DecodeOutcome.success t f rn b e := by
        rw [doDecodeGo_cons, hd2]
      rw [hgo] at h
      exact absurd h (by simp)
    | failure k2 =>
      have hgo : doDecodeGo sym hints ((n, r) :: rest) best
          = doDecodeGo sym hints rest
              (if best = FailureKind.notFound then k2 else best) := by
        rw [doDecodeGo_cons, hd2]
      rw [hgo] at h
      rcases hdisj with ⟨p, hp, k3, hd3, hk3⟩ | hbest
      · rcases List.mem_cons.mp hp with rfl | hp2
        · have hk23 : k3 = k2 := by
            rw [hd2] at hd3
            simpa using hd3.symm
          have hb2 : (if best = FailureKind.notFound then k2 else best)
              ≠ FailureKind.notFound := by
            by_cases hbnf : best = FailureKind.notFound
            · rw [if_pos hbnf]
              rw [hk23] at hk3
              exact hk3
            · rw [if_neg hbnf]
              exact hbnf
          exact ih _ k h (Or.inr hb2)
        · exact ih _ k h (Or.inl ⟨p, hp2, k3, hd3, hk3⟩)
      · have hb2 : (if best = FailureKind.notFound then k2 else best)
            ≠ FailureKind.notFound := by
          rw [if_neg hbest]
          exact hbest
        exact ih _ k h (Or.inr hb2)

/-- A driver success always comes from some sampled row's success. -/
theorem doDecodeGo_success {H : Type} (sym : Symbology) (hints : H) :
    ∀ (rows : List (Nat × List Bool)) (best : FailureKind) (t : List Char)
      (f : BarcodeFormat) (rn bb ee : Nat),
      doDecodeGo sym hints rows best = DecodeOutcome.success t f rn bb ee →
      ∃ p ∈ rows, decodeRow sym p.1 p.2 hints = DecodeOutcome.success t f rn bb ee := by
  intro rows
  induction rows with
  | nil =>
    intro best t f rn bb ee h
    rw [doDecodeGo_nil] at h
    exact absurd h (by simp)
  | cons hd rest ih =>
    obtain ⟨n, r⟩ := hd
    intro best t f rn bb ee h
    cases hd2 : decodeRow sym n r hints with
    | success t2 f2 rn2 b2 e2 =>
      have hgo : doDecodeGo sym hints ((n, r) :: rest) best
          = DecodeOutcome.success t2 f2 rn2 b2 e2 := by
        rw [doDecodeGo_cons, hd2]
      rw [hgo] at h
      have heq : t2 = t ∧ f2 = f ∧ rn2 = rn ∧ b2 = bb ∧ e2 = ee := by
        simpa using h
      obtain ⟨rfl, rfl, rfl, rfl, rfl⟩ := heq
      exact ⟨(n, r), by simp, hd2⟩
    | failure k2 =>
      have hgo : doDecodeGo sym hints ((n, r) :: rest) best
          = doDecodeGo sym hints rest
              (if best = FailureKind.notFound then k2 else best) := by
        rw [doDecodeGo_cons, hd2]
      rw [hgo] at h
      obtain ⟨p, hp, hps⟩ := ih _ t f rn bb ee h
      exact ⟨p, by simp [hp], hps⟩

/-- Claim C4: when every sampled row's decode fails, the row-sampling driver
reports a Checksum or Format failure in preference to NotFound whenever at
least one sampled row produced such a failure; a checksum failure is never
reported as NotFound, and no failure kind is ever reported as success (a
driver success always reproduces some row's success). -/
theorem doDecode_failure_priority (H : Type) (sym : Symbology) (hints : H)
    (rows : List (Nat × List Bool)) :
    (∀ k, doDecode sym hints rows = DecodeOutcome.failure k →
      ∀ p ∈ rows, ∃ k2, decodeRow sym p.1 p.2 hints = DecodeOutcome.failure k2)
    ∧ (∀ k, doDecode sym hints rows = DecodeOutcome.failure k →
        (∃ p ∈ rows, ∃ k2, decodeRow sym p.1 p.2 hints = DecodeOutcome.failure k2 ∧
          k2 ≠ FailureKind.notFound) →
        (k = FailureKind.checksumError ∨ k = FailureKind.formatError))
    ∧ (∀ t f rn bb ee, doDecode sym hints rows = DecodeOutcome.success t f rn bb ee →
        ∃ p ∈ rows, decodeRow sym p.1 p.2 hints = DecodeOutcome.success t f rn bb ee) := by
  refine ⟨?_, ?_, ?_⟩
  · intro k h
    exact doDecodeGo_all_fail sym hints rows FailureKind.notFound k h
  · intro k h hex
    have hknf : k ≠ FailureKind.notFound :=
      doDecodeGo_informative sym hints rows FailureKind.notFound k h (Or.inl hex)
    cases k with
    | notFound => exact absurd rfl hknf
    | formatError => exact Or.inr rfl
    | checksumError => exact Or.inl rfl
  · intro t f rn bb ee h
    exact doDecodeGo_success sym hints rows FailureKind.notFound t f rn bb ee h

/-- Witness for claim C4: a single sampled row whose middle decode reports a
checksum failure makes the driver report Checksum, not NotFound. -/
theorem doDecode_failure_priority_witness :
    doDecode witnessSymbology () [(0, [false, true, false])]
        = DecodeOutcome.failure FailureKind.checksumError ∧
      (FailureKind.checksumError = FailureKind.checksumError ∨
        FailureKind.checksumError = FailureKind.formatError) := by
  have h1 : rowDecodeStep witnessSymbology 0 [false, true, false]
      RowDecodeState.searchingStartGuard = RowDecodeState.decodingMiddle 0 3 := by
    rw [rowDecodeStep_start, findStartGuard_www]
  have h2 : rowDecodeStep witnessSymbology 0 [false, true, false]
      (RowDecodeState.decodingMiddle 0 3)
      = RowDecodeState.done (DecodeOutcome.failure FailureKind.checksumError) := by
    rw [rowDecodeStep_middle]
    rfl
  have hd : decodeRow witnessSymbology 0 [false, true, false] ()
      = DecodeOutcome.failure FailureKind.checksumError := by
    have hit : decodeRow witnessSymbology 0 [false, true, false] ()
        = extractOutcome (rowDecodeStep witnessSymbology 0 [false, true, false]
            (rowDecodeStep witnessSymbology 0 [false, true, false]
              (rowDecodeStep witnessSymbology 0 [false, true, false]
                (rowDecodeStep witnessSymbology 0 [false, true, false]
                  RowDecodeState.searchingStartGuard)))) := rfl
    rw [hit, h1, h2, rowDecodeStep_done, rowDecodeStep_done]
    rfl
  have hdo : doDecode witnessSymbology () [(0, [false, true, false])]
      = DecodeOutcome.failure FailureKind.checksumError := by
    have hgo : doDecodeGo witnessSymbology () [(0, [false, true, false])]
        FailureKind.notFound
        = doDecodeGo witnessSymbology () []
            (if FailureKind.notFound = FailureKind.notFound then FailureKind.checksumError
              else FailureKind.notFound) := by
      rw [doDecodeGo_cons, hd]
    unfold doDecode
    rw [hgo]
    rfl
  refine ⟨hdo, ?_⟩
  exact (doDecode_failure_priority Unit witnessSymbology () [(0, [false, true, false])]).2.1
    FailureKind.checksumError hdo
    ⟨(0, [false, true, false]), by simp, FailureKind.checksumError, hd, by simp⟩

end OneD

end ZXing
